import Mathlib

/-!
Verification of the `triemap` longest-prefix-match map.

Shallow embedding of `src/triemap/triemap.go` (package `triemap` of
`noisysockets/util`): a binary trie over IP address bits mapping
`netip.Prefix` keys to values of a comparable type `V`, with a value
registry (`keyToValue` / `valueToKey` / `keyRefs`) that de-duplicates
values behind dense `int` keys.

Conventions of the embedding:
* `netip.Addr` becomes `Addr`: a family flag (`is4`, the result of
  `addr.Unmap().Is4()` in Go) together with the address bits as a natural
  number (big-endian value of the 4- or 16-byte representation, exactly
  what Go's `addrToUint128` computes).
* `netip.Prefix` becomes `Pfx` (field `pfx` in `NodeValue`): the Go field
  name `prefix` is renamed to `pfx` throughout, nothing else changes.
* Go `nil` pointers to `trieNode` become the `TrieN.nil` constructor;
  an allocated node is `TrieN.node child0 child1 value`.
* Go maps become association lists with distinct keys (`aset` replaces,
  `adel` deletes), so `len` is list length and a missing key reads as the
  zero value where the Go code relies on that.
* The bit test `ip.Bit(i)` of `uint128.Uint128` is not under `src/`;
  modelled from the spec: "bit-test at an arbitrary index, indexed from
  most-significant (index = total-bits−1) to least-significant (index 0)",
  i.e. `Nat.testBit` of the address value.
* The `sync.RWMutex` is dropped: every public operation holds the lock for
  its whole body, so the sequential semantics below is the observable one.
-/

set_option autoImplicit false

namespace TrieMapGo

/-- `netip.Addr`, reduced to what the trie consumes: the family
(`Unmap().Is4()`) and the big-endian integer value of the bytes. -/
structure Addr where
  is4 : Bool
  val : Nat
deriving DecidableEq, Repr

/-- `totalBits` as returned by `addrToUint128`: 32 for IPv4, 128 for IPv6. -/
def widthOf (a : Addr) : Nat := if a.is4 then 32 else 128

/-- `netip.Prefix`: an address plus a bit length. -/
structure Pfx where
  addr : Addr
  bits : Nat
deriving DecidableEq, Repr

/-- The per-node binding `nodeValue{prefix, key}` (field `prefix` renamed
`pfx`). -/
structure NodeValue where
  pfx : Pfx
  key : Int
deriving DecidableEq, Repr

/-- `*trieNode`: `nil` is the nil pointer, `node c0 c1 v` an allocated
`trieNode{child0: c0, child1: c1, value: v}`. -/
inductive TrieN where
  | nil : TrieN
  | node (child0 child1 : TrieN) (value : Option NodeValue) : TrieN
deriving DecidableEq, Repr

/-- The first `n` bits of `ip` walking from bit index `w-1` (most
significant) downwards, as the Go loops do with `ip.Bit(i)`,
`i = totalBits-1, totalBits-2, ...`. -/
def pathBits (ip w n : Nat) : List Bool :=
  (List.range n).map (fun j => ip.testBit (w - 1 - j))

/-- The full root-to-leaf bit path of an address (all `totalBits` bits). -/
def addrPath (a : Addr) : List Bool := pathBits a.val (widthOf a) (widthOf a)

/-- The insert/remove walk for a `Pfx`: its first `bits` address bits. -/
def pfxPath (p : Pfx) : List Bool := pathBits p.addr.val (widthOf p.addr) p.bits

/-- `prefix.Contains(addr)`: same family and the first `bits` bits agree
(the comparison of the values shifted right past the host bits). -/
def containsA (p : Pfx) (a : Addr) : Bool :=
  p.addr.is4 == a.is4 &&
    (p.addr.val >>> (widthOf p.addr - p.bits) == a.val >>> (widthOf p.addr - p.bits))

/-! ## Go maps as association lists -/

/-- Go map read `m[k]` returning `(value, ok)` — `none` when absent. -/
def alookup {α β : Type} [DecidableEq α] : List (α × β) → α → Option β
  | [], _ => none
  | (k, v) :: rest, k' => if k = k' then some v else alookup rest k'

/-- Go map write `m[k] = v` (replaces any existing entry for `k`). -/
def aset {α β : Type} [DecidableEq α] (l : List (α × β)) (k : α) (v : β) :
    List (α × β) :=
  (k, v) :: l.filter (fun q => decide (q.1 ≠ k))

/-- Go `delete(m, k)`. -/
def adel {α β : Type} [DecidableEq α] (l : List (α × β)) (k : α) :
    List (α × β) :=
  l.filter (fun q => decide (q.1 ≠ k))

/-- Go read of `map[int]int` where a missing key counts as `0`
(`t.keyRefs[key]`). -/
def refsGet (l : List (Int × Int)) (k : Int) : Int := (alookup l k).getD 0

/-- `t.keyRefs[k]++`. -/
def refsInc (l : List (Int × Int)) (k : Int) : List (Int × Int) :=
  aset l k (refsGet l k + 1)

/-- `t.keyRefs[k]--`. -/
def refsDec (l : List (Int × Int)) (k : Int) : List (Int × Int) :=
  aset l k (refsGet l k - 1)

/-! ## The trie core (`trieMap`) -/

/-- `trieMap{ipv4Root, ipv6Root, keyRefs}`. A `nil` Go map and an empty
one behave identically for the operations used, so `keyRefs` starts `[]`. -/
structure TrieCore where
  ipv4Root : TrieN
  ipv6Root : TrieN
  keyRefs : List (Int × Int)
deriving DecidableEq, Repr

/-- `getRootNode`: pick the root by `addr.Unmap().Is4()`. -/
def getRootNode (t : TrieCore) (a : Addr) : TrieN :=
  if a.is4 then t.ipv4Root else t.ipv6Root

/-- The child slot selected by one address bit (`child1` for a set bit). -/
def childFor (n : TrieN) (b : Bool) : TrieN :=
  match n with
  | .nil => .nil
  | .node c0 c1 _ => if b then c1 else c0

/-- The match check of `trieMap.get` performed on each node entered:
record the node's value as the new best when its prefix contains the
address and its bit length beats `longestMatchLength`
(`st = (longestMatchLength, key, contains)`). -/
def bestUpd (a : Addr) (v : Option NodeValue) (st : Int × Int × Bool) :
    Int × Int × Bool :=
  match v with
  | some nv =>
    if containsA nv.pfx a && decide (st.1 < (nv.pfx.bits : Int)) then
      ((nv.pfx.bits : Int), nv.key, true)
    else st
  | none => st

/-- The loop of `trieMap.get`: descend along the address bits, stopping
at a missing child; each node entered is checked with `bestUpd`. -/
def getLoop (a : Addr) : TrieN → List Bool → Int × Int × Bool → Int × Int × Bool
  | _, [], st => st
  | .nil, _ :: _, st => st
  | .node c0 c1 _, b :: bs, st =>
    match if b then c1 else c0 with
    | .nil => st
    | .node d0 d1 v => getLoop a (.node d0 d1 v) bs (bestUpd a v st)

/-- `trieMap.get`: `(-1, false)` on a missing root, otherwise the root is
checked first (`longestMatchLength` starts at `-1`, `key` at `0`) and the
loop walks every address bit. -/
def trieGet (t : TrieCore) (a : Addr) : Int × Bool :=
  match getRootNode t a with
  | .nil => (-1, false)
  | .node c0 c1 v =>
    let st0 : Int × Int × Bool :=
      match v with
      | some nv =>
        if containsA nv.pfx a then ((nv.pfx.bits : Int), nv.key, true)
        else (-1, 0, false)
      | none => (-1, 0, false)
    let r := getLoop a (.node c0 c1 v) (addrPath a) st0
    (r.2.1, r.2.2)

/-- The walk of `trieMap.insert`: create missing nodes along the path,
set the terminal node's value, and return the key the terminal node held
before (whose reference count the caller decrements). -/
def insertPath : TrieN → List Bool → NodeValue → TrieN × Option Int
  | .nil, [], nv => (.node .nil .nil (some nv), none)
  | .node c0 c1 v, [], nv => (.node c0 c1 (some nv), v.map NodeValue.key)
  | .nil, b :: bs, nv =>
    let r := insertPath .nil bs nv
    (if b then .node .nil r.1 none else .node r.1 .nil none, r.2)
  | .node c0 c1 v, b :: bs, nv =>
    if b then
      let r := insertPath c1 bs nv
      (.node c0 r.1 v, r.2)
    else
      let r := insertPath c0 bs nv
      (.node r.1 c1 v, r.2)

/-- `trieMap.insert`: walk `prefix.Bits()` bits of the prefix address in
the family's root (creating it when `nil`), replace the terminal value,
decrement the reference count of a replaced key, increment the new one. -/
def trieInsert (t : TrieCore) (p : Pfx) (key : Int) : TrieCore :=
  if p.addr.is4 then
    let r := insertPath t.ipv4Root (pfxPath p) ⟨p, key⟩
    { t with ipv4Root := r.1,
             keyRefs := refsInc (match r.2 with
                                 | some old => refsDec t.keyRefs old
                                 | none => t.keyRefs) key }
  else
    let r := insertPath t.ipv6Root (pfxPath p) ⟨p, key⟩
    { t with ipv6Root := r.1,
             keyRefs := refsInc (match r.2 with
                                 | some old => refsDec t.keyRefs old
                                 | none => t.keyRefs) key }

/-- A node that `prune` detaches: no children and no value. -/
def isEmptyNode : TrieN → Bool
  | .node .nil .nil none => true
  | _ => false

/-- Bottom-up pruning step: an empty node is detached (becomes `nil`). -/
def pruneN (n : TrieN) : TrieN := if isEmptyNode n then .nil else n

/-- The walk of `trieMap.remove`: follow the path (failing on a missing
child), require the terminal value's stored prefix to equal the sought
prefix verbatim, clear it, and prune empty nodes bottom-up along the
path. `none` = not found; `some (n, k)` = new subtree (after pruning)
and the removed key. -/
def removePath : TrieN → List Bool → Pfx → Option (TrieN × Int)
  | .nil, _, _ => none
  | .node c0 c1 v, [], p =>
    match v with
    | some nv =>
      if nv.pfx = p then some (pruneN (.node c0 c1 none), nv.key) else none
    | none => none
  | .node c0 c1 v, b :: bs, p =>
    match removePath (if b then c1 else c0) bs p with
    | none => none
    | some r =>
      some (pruneN (if b then .node c0 r.1 v else .node r.1 c1 v), r.2)

/-- `prune` never detaches the root (`i > 0` check): a root pruned to
nothing is kept as an allocated empty node. -/
def keepRoot (n : TrieN) : TrieN :=
  match n with
  | .nil => .node .nil .nil none
  | m => m

/-- `trieMap.remove`: returns the updated core plus `(key, removed)`;
on success the removed key's reference count is decremented and its
`keyRefs` entry deleted when it reaches zero. -/
def trieRemove (t : TrieCore) (p : Pfx) : TrieCore × Int × Bool :=
  if p.addr.is4 then
    match t.ipv4Root with
    | .nil => (t, -1, false)
    | .node c0 c1 v =>
      match removePath (.node c0 c1 v) (pfxPath p) p with
      | none => (t, -1, false)
      | some r =>
        let refs := refsDec t.keyRefs r.2
        let refs := if refsGet refs r.2 == 0 then adel refs r.2 else refs
        ({ t with ipv4Root := keepRoot r.1, keyRefs := refs }, r.2, true)
  else
    match t.ipv6Root with
    | .nil => (t, -1, false)
    | .node c0 c1 v =>
      match removePath (.node c0 c1 v) (pfxPath p) p with
      | none => (t, -1, false)
      | some r =>
        let refs := refsDec t.keyRefs r.2
        let refs := if refsGet refs r.2 == 0 then adel refs r.2 else refs
        ({ t with ipv6Root := keepRoot r.1, keyRefs := refs }, r.2, true)

/-- The collection phase of `trieMap.removeAll`: the explicit-stack
traversal visits a node, then its `child1` subtree, then its `child0`
subtree, gathering the stored prefixes bound to `key`. -/
def collectKey (key : Int) : TrieN → List Pfx
  | .nil => []
  | .node c0 c1 v =>
    (match v with
     | some nv => if nv.key = key then [nv.pfx] else []
     | none => []) ++ collectKey key c1 ++ collectKey key c0

/-- `trieMap.removeAll`: snapshot every prefix bound to `key` (the stack
starts `[ipv4Root, ipv6Root]`, so the IPv6 root is popped first), then
remove each snapshot entry. -/
def removeAll (t : TrieCore) (key : Int) : TrieCore :=
  (collectKey key t.ipv6Root ++ collectKey key t.ipv4Root).foldl
    (fun acc p => (trieRemove acc p).1) t

/-! ## The facade (`TrieMap[V]`) -/

/-- `TrieMap[V]`: the trie core plus the value registry. -/
structure TrieMapS (V : Type) where
  trie : TrieCore
  keyToValue : List (Int × V)
  valueToKey : List (V × Int)
deriving DecidableEq, Repr

/-- `New[V]()`. -/
def NewMap (V : Type) : TrieMapS V :=
  { trie := { ipv4Root := .nil, ipv6Root := .nil, keyRefs := [] },
    keyToValue := [], valueToKey := [] }

/-- `TrieMap.Insert`: resolve the key for `value` (allocating
`len(keyToValue)` when the value is new) and insert into the trie. -/
def FInsert {V : Type} [DecidableEq V] (t : TrieMapS V) (p : Pfx) (v : V) :
    TrieMapS V :=
  match alookup t.valueToKey v with
  | some key => { t with trie := trieInsert t.trie p key }
  | none =>
    let key : Int := (t.keyToValue.length : Int)
    { trie := trieInsert t.trie p key,
      keyToValue := aset t.keyToValue key v,
      valueToKey := aset t.valueToKey v key }

/-- `TrieMap.Get`: trie lookup, then translate the key through
`keyToValue` (zero value of `V` on a miss). -/
def FGet {V : Type} [DecidableEq V] (zeroV : V) (t : TrieMapS V) (a : Addr) :
    V × Bool :=
  let r := trieGet t.trie a
  (if r.2 then (alookup t.keyToValue r.1).getD zeroV else zeroV, r.2)

/-- `TrieMap.Remove`: trie removal; when the removed key's reference
count is zero, the code deletes `keyToValue[key]` first and then deletes
`valueToKey[t.keyToValue[key]]` — reading `keyToValue[key]` *after* the
first delete, which yields the zero value of `V`. The embedding keeps
that read order. -/
def FRemove {V : Type} [DecidableEq V] (zeroV : V) (t : TrieMapS V) (p : Pfx) :
    TrieMapS V × Bool :=
  let r := trieRemove t.trie p
  if r.2.2 && (refsGet r.1.keyRefs r.2.1 == 0) then
    let keyToValue' := adel t.keyToValue r.2.1
    let staleValue := (alookup keyToValue' r.2.1).getD zeroV
    ({ trie := r.1, keyToValue := keyToValue',
       valueToKey := adel t.valueToKey staleValue }, r.2.2)
  else
    ({ t with trie := r.1 }, r.2.2)

/-- `TrieMap.RemoveValue`: look up the value's key; when present, remove
all its prefixes from the trie and evict both registry directions. -/
def FRemoveValue {V : Type} [DecidableEq V] (t : TrieMapS V) (v : V) :
    TrieMapS V :=
  match alookup t.valueToKey v with
  | none => t
  | some key =>
    { trie := removeAll t.trie key,
      keyToValue := adel t.keyToValue key,
      valueToKey := adel t.valueToKey v }

/-- The per-root emptiness test of `TrieMap.Empty`:
`root == nil || (child0 == nil && child1 == nil && value == nil)`. -/
def rootEmpty : TrieN → Bool
  | .nil => true
  | .node .nil .nil none => true
  | .node _ _ _ => false

/-- `TrieMap.Empty`. -/
def FEmpty {V : Type} (t : TrieMapS V) : Bool :=
  rootEmpty t.trie.ipv4Root && rootEmpty t.trie.ipv6Root

/-! ## Specification predicates -/

/-- The value stored at the node reached from `n` by following the bit
list `ℓ` (through `nil` everything is `none`). The bindings of a trie are
exactly the pairs `(ℓ, nv)` with `storedAt n ℓ = some nv`. -/
def storedAt : TrieN → List Bool → Option NodeValue
  | .nil, _ => none
  | .node _ _ v, [] => v
  | .node c0 c1 _, b :: bs => storedAt (if b then c1 else c0) bs

/-- The root of the family selected by `is4`. -/
def rootOf {V : Type} (t : TrieMapS V) (is4 : Bool) : TrieN :=
  if is4 then t.trie.ipv4Root else t.trie.ipv6Root

/-- The root of the family selected by `is4`, at the trie-core level. -/
def coreRoot (t : TrieCore) (is4 : Bool) : TrieN :=
  if is4 then t.ipv4Root else t.ipv6Root

/-- The key `TrieMap.Insert` resolves for `value`: the registered one, or
`len(keyToValue)` for a new value. -/
def usedKey {V : Type} [DecidableEq V] (t : TrieMapS V) (v : V) : Int :=
  match alookup t.valueToKey v with
  | some k => k
  | none => (t.keyToValue.length : Int)

/-- Well-formedness of a `netip.Prefix`: the address value fits its
family's width and the bit length does not exceed it. -/
def WFPfx (p : Pfx) : Prop :=
  p.addr.val < 2 ^ widthOf p.addr ∧ p.bits ≤ widthOf p.addr

instance (p : Pfx) : Decidable (WFPfx p) := by unfold WFPfx; infer_instance

/-- Placement invariant below a node sitting at path `consumed` of the
`fam` root: every stored value is a well-formed prefix of family `fam`
whose walk is exactly the path of the node holding it. -/
def placedFrom (fam : Bool) : List Bool → TrieN → Bool
  | _, .nil => true
  | consumed, .node c0 c1 v =>
    (match v with
     | some nv =>
       (nv.pfx.addr.is4 == fam) && decide (WFPfx nv.pfx) &&
         (pfxPath nv.pfx == consumed)
     | none => true)
    && placedFrom fam (consumed ++ [false]) c0
    && placedFrom fam (consumed ++ [true]) c1


/-- Pruning invariant: no *child* slot anywhere holds an empty node
(a node with no value and no children). The top node itself may be empty:
the Go `prune` never detaches the root. -/
def wellPruned : TrieN → Bool
  | .nil => true
  | .node c0 c1 _ =>
    !isEmptyNode c0 && !isEmptyNode c1 && wellPruned c0 && wellPruned c1

/-- The literal reading of the eager-pruning claim: *no* node with no
value and no children persists, the root included. -/
def noEmptyNodeIn : TrieN → Bool
  | .nil => true
  | .node c0 c1 v =>
    !isEmptyNode (.node c0 c1 v) && noEmptyNodeIn c0 && noEmptyNodeIn c1

/-- No stored value in the tree contains the address `a`. -/
def noMatchIn (a : Addr) : TrieN → Bool
  | .nil => true
  | .node c0 c1 v =>
    (match v with
     | some nv => !containsA nv.pfx a
     | none => true) && noMatchIn a c0 && noMatchIn a c1

/-- Every stored value containing `a` has bit length at most `d`
("no inserted prefix longer than `d` contains `a`"). -/
def maxMatchBits (a : Addr) (d : Nat) : TrieN → Bool
  | .nil => true
  | .node c0 c1 v =>
    (match v with
     | some nv => !containsA nv.pfx a || decide (nv.pfx.bits ≤ d)
     | none => true) && maxMatchBits a d c0 && maxMatchBits a d c1

/-- No stored value in the tree carries the synthetic key `k`. -/
def noKeyIn (k : Int) : TrieN → Bool
  | .nil => true
  | .node c0 c1 v =>
    (match v with
     | some nv => !(nv.key == k)
     | none => true) && noKeyIn k c0 && noKeyIn k c1

/-- The tree stores no value at all. -/
def noValuesIn : TrieN → Bool
  | .nil => true
  | .node c0 c1 v => v.isNone && noValuesIn c0 && noValuesIn c1

/-- The state of `trieMap.get` after the root check and before its loop
(equal to the inline computation in `trieGet`, split out for the proofs). -/
def rootSt (a : Addr) (v : Option NodeValue) : Int × Int × Bool :=
  match v with
  | some nv =>
    if containsA nv.pfx a then ((nv.pfx.bits : Int), nv.key, true)
    else (-1, 0, false)
  | none => (-1, 0, false)

/-! Concrete example data (addresses in dotted form in the comments). -/

/-- `10.0.0.0/8`. -/
def pA : Pfx := ⟨⟨true, 0x0A000000⟩, 8⟩

/-- `192.168.0.0/16`. -/
def pB : Pfx := ⟨⟨true, 0xC0A80000⟩, 16⟩

/-- `172.16.0.0/12`. -/
def pC : Pfx := ⟨⟨true, 0xAC100000⟩, 12⟩

/-- `10.0.0.1`. -/
def aA : Addr := ⟨true, 0x0A000001⟩

/-- `192.168.0.1`. -/
def aB : Addr := ⟨true, 0xC0A80001⟩

/-- One binding: `10.0.0.0/8 ↦ 101`. -/
def sA : TrieMapS Int := FInsert (NewMap Int) pA 101

/-- `sA` after removing its only prefix. -/
def sARemoved : TrieMapS Int := (FRemove 0 sA pA).1

/-- Two values: `10.0.0.0/8 ↦ 101`, `192.168.0.0/16 ↦ 102`. -/
def sAB : TrieMapS Int := FInsert (FInsert (NewMap Int) pA 101) pB 102

/-- `sAB` after `RemoveValue 101` and a fresh insert
`172.16.0.0/12 ↦ 103` (the key-reuse scenario). -/
def sReuse : TrieMapS Int := FInsert (FRemoveValue sAB 101) pC 103

/-- The states reachable through the public API from `New[V]()`
(`zeroV` is the zero value of `V`, read by `Get` and `Remove`). Inserted
prefixes are well-formed, as `netip` guarantees. -/
inductive Reachable {V : Type} [DecidableEq V] (zeroV : V) :
    TrieMapS V → Prop where
  | new : Reachable zeroV (NewMap V)
  | insert {t : TrieMapS V} (p : Pfx) (v : V) :
      WFPfx p → Reachable zeroV t → Reachable zeroV (FInsert t p v)
  | remove {t : TrieMapS V} (p : Pfx) :
      Reachable zeroV t → Reachable zeroV (FRemove zeroV t p).1
  | removeValue {t : TrieMapS V} (v : V) :
      Reachable zeroV t → Reachable zeroV (FRemoveValue t v)

/-! ## Association-list lemmas -/

theorem alookup_aset_self {α β : Type} [DecidableEq α]
    (l : List (α × β)) (k : α) (v : β) : alookup (aset l k v) k = some v := by
  simp [aset, alookup]

theorem alookup_filter_ne {α β : Type} [DecidableEq α]
    (l : List (α × β)) (k k' : α) (hk : k' ≠ k) :
    alookup (l.filter (fun q => decide (q.1 ≠ k))) k' = alookup l k' := by
  induction l with
  | nil => rfl
  | cons q rest ih =>
    rcases q with ⟨qk, qv⟩
    rw [List.filter_cons]
    by_cases hq : qk = k
    · rw [if_neg (by simp [hq]), ih]
      simp only [alookup]
      rw [if_neg (fun h => hk (by rw [← h, hq]))]
    · rw [if_pos (by simp [hq])]
      simp only [alookup]
      rw [ih]

theorem alookup_aset_ne {α β : Type} [DecidableEq α]
    (l : List (α × β)) (k k' : α) (v : β) (hk : k' ≠ k) :
    alookup (aset l k v) k' = alookup l k' := by
  simp only [aset, alookup]
  rw [if_neg (fun h => hk h.symm)]
  exact alookup_filter_ne l k k' hk

theorem alookup_adel_self {α β : Type} [DecidableEq α]
    (l : List (α × β)) (k : α) : alookup (adel l k) k = none := by
  induction l with
  | nil => rfl
  | cons q rest ih =>
    rcases q with ⟨qk, qv⟩
    simp only [adel, List.filter_cons] at ih ⊢
    by_cases hq : qk = k
    · rw [if_neg (by simp [hq])]
      exact ih
    · rw [if_pos (by simp [hq])]
      simp only [alookup]
      rw [if_neg hq]
      exact ih

theorem alookup_adel_ne {α β : Type} [DecidableEq α]
    (l : List (α × β)) (k k' : α) (hk : k' ≠ k) :
    alookup (adel l k) k' = alookup l k' :=
  alookup_filter_ne l k k' hk

theorem refsGet_refsInc_self (l : List (Int × Int)) (k : Int) :
    refsGet (refsInc l k) k = refsGet l k + 1 := by
  simp [refsGet, refsInc, alookup_aset_self]

theorem refsGet_refsInc_ne (l : List (Int × Int)) (k k' : Int) (hk : k' ≠ k) :
    refsGet (refsInc l k) k' = refsGet l k' := by
  simp [refsGet, refsInc, alookup_aset_ne _ _ _ _ hk]

theorem refsGet_refsDec_self (l : List (Int × Int)) (k : Int) :
    refsGet (refsDec l k) k = refsGet l k - 1 := by
  simp [refsGet, refsDec, alookup_aset_self]

theorem refsGet_refsDec_ne (l : List (Int × Int)) (k k' : Int) (hk : k' ≠ k) :
    refsGet (refsDec l k) k' = refsGet l k' := by
  simp [refsGet, refsDec, alookup_aset_ne _ _ _ _ hk]

/-! ## Path lemmas -/

@[simp] theorem length_pathBits (ip w n : Nat) :
    (pathBits ip w n).length = n := by
  simp [pathBits]

theorem pathBits_take (ip w m n : Nat) (h : n ≤ m) :
    (pathBits ip w m).take n = pathBits ip w n := by
  unfold pathBits
  rw [← List.map_take, List.take_range]
  have hmin : n ⊓ m = n := by omega
  rw [hmin]

@[simp] theorem length_pfxPath (p : Pfx) : (pfxPath p).length = p.bits := by
  simp [pfxPath]

@[simp] theorem length_addrPath (a : Addr) :
    (addrPath a).length = widthOf a := by
  simp [addrPath]

theorem widthOf_eq_of_is4 {p : Pfx} {a : Addr} (h : p.addr.is4 = a.is4) :
    widthOf p.addr = widthOf a := by
  simp [widthOf, h]

theorem testBit_eq_of_shiftRight_eq {x y m i : Nat}
    (h : x >>> m = y >>> m) (hi : m ≤ i) : x.testBit i = y.testBit i := by
  have := congrArg (fun z => Nat.testBit z (i - m)) h
  simpa [Nat.testBit_shiftRight, Nat.add_sub_cancel' hi] using this

/-- `Contains` implies that the prefix's walk is an initial segment of the
address's full bit path. -/
theorem pfxPath_eq_take {p : Pfx} {a : Addr} (hwf : WFPfx p)
    (hc : containsA p a = true) :
    pfxPath p = (addrPath a).take p.bits := by
  have hfam : p.addr.is4 = a.is4 := by
    simp only [containsA, Bool.and_eq_true, beq_iff_eq] at hc
    exact hc.1
  have hshift : p.addr.val >>> (widthOf p.addr - p.bits)
      = a.val >>> (widthOf p.addr - p.bits) := by
    simp only [containsA, Bool.and_eq_true, beq_iff_eq] at hc
    exact hc.2
  have hw : widthOf p.addr = widthOf a := widthOf_eq_of_is4 hfam
  have hb : p.bits ≤ widthOf a := hw ▸ hwf.2
  have hbw : p.bits ≤ widthOf p.addr := hwf.2
  simp only [pfxPath, addrPath]
  rw [pathBits_take _ _ _ _ hb, ← hw]
  apply List.ext_getElem (by simp)
  intro j h1 h2
  simp only [pathBits, List.getElem_map, List.getElem_range]
  apply testBit_eq_of_shiftRight_eq hshift
  have hjb : j < p.bits := by simpa using h1
  omega

/-- Two prefixes of the same family, bit length and network bits walk the
same trie path. -/
theorem pfxPath_eq_of_same_top {p q : Pfx} (hfam : p.addr.is4 = q.addr.is4)
    (hbits : p.bits = q.bits)
    (htop : p.addr.val >>> (widthOf p.addr - p.bits)
      = q.addr.val >>> (widthOf q.addr - q.bits)) :
    pfxPath p = pfxPath q := by
  have hw : widthOf p.addr = widthOf q.addr := by simp [widthOf, hfam]
  simp only [pfxPath]
  rw [← hbits, ← hw]
  apply List.ext_getElem (by simp)
  intro j h1 h2
  simp only [pathBits, List.getElem_map, List.getElem_range]
  apply testBit_eq_of_shiftRight_eq (htop.trans (by rw [hw, hbits]))
  have hjb : j < p.bits := by simpa using h1
  omega

/-! ## Placement bridge -/

theorem placed_storedAt {fam : Bool} {ℓ m : List Bool} {n : TrieN}
    {nv : NodeValue} (hp : placedFrom fam ℓ n = true)
    (hs : storedAt n m = some nv) :
    nv.pfx.addr.is4 = fam ∧ WFPfx nv.pfx ∧ pfxPath nv.pfx = ℓ ++ m := by
  induction m generalizing n ℓ with
  | nil =>
    cases n with
    | nil => simp [storedAt] at hs
    | node c0 c1 v =>
      simp only [storedAt] at hs
      subst hs
      simp only [placedFrom, Bool.and_eq_true, beq_iff_eq,
        decide_eq_true_eq] at hp
      exact ⟨hp.1.1.1.1, hp.1.1.1.2, by simpa using hp.1.1.2⟩
  | cons b bs ih =>
    cases n with
    | nil => simp [storedAt] at hs
    | node c0 c1 v =>
      simp only [storedAt] at hs
      simp only [placedFrom, Bool.and_eq_true] at hp
      cases b with
      | false =>
        have := ih (n := c0) (ℓ := ℓ ++ [false]) hp.1.2 (by simpa using hs)
        simpa using this
      | true =>
        have := ih (n := c1) (ℓ := ℓ ++ [true]) hp.2 (by simpa using hs)
        simpa using this

/-! ## Lookup correctness -/

theorem getLoop_cons_nil (a : Addr) (b : Bool) (bs : List Bool)
    (st : Int × Int × Bool) (c0 c1 : TrieN) (v : Option NodeValue)
    (h : (if b then c1 else c0) = TrieN.nil) :
    getLoop a (.node c0 c1 v) (b :: bs) st = st := by
  simp only [getLoop, h]

theorem getLoop_cons_node (a : Addr) (b : Bool) (bs : List Bool)
    (st : Int × Int × Bool) (c0 c1 : TrieN) (v : Option NodeValue)
    (d0 d1 : TrieN) (w : Option NodeValue)
    (h : (if b then c1 else c0) = TrieN.node d0 d1 w) :
    getLoop a (.node c0 c1 v) (b :: bs) st
      = getLoop a (.node d0 d1 w) bs (bestUpd a w st) := by
  simp only [getLoop, h]

theorem bestUpd_cases (a : Addr) (v : Option NodeValue)
    (st : Int × Int × Bool) :
    bestUpd a v st = st ∨
      ∃ nv, v = some nv ∧ containsA nv.pfx a = true ∧
        st.1 < (nv.pfx.bits : Int) ∧
        bestUpd a v st = ((nv.pfx.bits : Int), nv.key, true) := by
  cases v with
  | none => exact Or.inl rfl
  | some nv =>
    by_cases h : (containsA nv.pfx a && decide (st.1 < (nv.pfx.bits : Int)))
      = true
    · refine Or.inr ⟨nv, rfl, ?_, ?_, ?_⟩
      · exact (Bool.and_eq_true _ _ ▸ h).1
      · exact of_decide_eq_true (Bool.and_eq_true _ _ ▸ h).2
      · simp [bestUpd, h]
    · exact Or.inl (by simp [bestUpd, h])

theorem bestUpd_mono (a : Addr) (v : Option NodeValue)
    (st : Int × Int × Bool) :
    st.1 ≤ (bestUpd a v st).1 ∧
      (st.2.2 = true → (bestUpd a v st).2.2 = true) := by
  rcases bestUpd_cases a v st with h | ⟨nv, -, -, hlt, h⟩
  · rw [h]; exact ⟨le_refl _, fun h' => h'⟩
  · rw [h]; exact ⟨le_of_lt hlt, fun _ => rfl⟩

theorem getLoop_mono (a : Addr) (bs : List Bool) :
    ∀ (n : TrieN) (st : Int × Int × Bool),
      st.1 ≤ (getLoop a n bs st).1 ∧
        (st.2.2 = true → (getLoop a n bs st).2.2 = true) := by
  induction bs with
  | nil =>
    intro n st
    cases n <;> exact ⟨le_refl _, fun h => h⟩
  | cons b bs ih =>
    intro n st
    cases n with
    | nil => exact ⟨le_refl _, fun h => h⟩
    | node c0 c1 v =>
      rcases hchild : (if b then c1 else c0) with - | ⟨d0, d1, w⟩
      · rw [getLoop_cons_nil a b bs st c0 c1 v hchild]
        exact ⟨le_refl _, fun h => h⟩
      · rw [getLoop_cons_node a b bs st c0 c1 v d0 d1 w hchild]
        have h1 := bestUpd_mono a w st
        have h2 := ih (.node d0 d1 w) (bestUpd a w st)
        exact ⟨le_trans h1.1 h2.1, fun h => h2.2 (h1.2 h)⟩

theorem getLoop_sound (a : Addr) (bs : List Bool) :
    ∀ (n : TrieN) (st : Int × Int × Bool),
      getLoop a n bs st = st ∨
        ∃ j nv, j < bs.length ∧ storedAt n (bs.take (j + 1)) = some nv ∧
          containsA nv.pfx a = true ∧
          getLoop a n bs st = ((nv.pfx.bits : Int), nv.key, true) := by
  induction bs with
  | nil => intro n st; cases n <;> exact Or.inl rfl
  | cons b bs ih =>
    intro n st
    cases n with
    | nil => exact Or.inl rfl
    | node c0 c1 v =>
      rcases hchild : (if b then c1 else c0) with - | ⟨d0, d1, w⟩
      · rw [getLoop_cons_nil a b bs st c0 c1 v hchild]
        exact Or.inl rfl
      · rw [getLoop_cons_node a b bs st c0 c1 v d0 d1 w hchild]
        have hstored1 : storedAt (TrieN.node c0 c1 v) [b] = w := by
          simp [storedAt, hchild]
        rcases ih (.node d0 d1 w) (bestUpd a w st) with h | ⟨j, nv, hj, hs, hc, h⟩
        · rw [h]
          rcases bestUpd_cases a w st with h' | ⟨nv, hw, hc, -, h'⟩
          · exact Or.inl h'
          · refine Or.inr ⟨0, nv, by simp, ?_, hc, h'⟩
            simpa [hw] using hstored1
        · refine Or.inr ⟨j + 1, nv, by simpa using hj, ?_, hc, h⟩
          rw [List.take_succ_cons]
          simpa [storedAt, hchild] using hs

theorem getLoop_reach (a : Addr) (fam : Bool) :
    ∀ (m bs ℓ : List Bool) (n : TrieN) (st : Int × Int × Bool)
      (nv : NodeValue),
      placedFrom fam ℓ n = true →
      m ≠ [] → m = bs.take m.length →
      storedAt n m = some nv →
      containsA nv.pfx a = true →
      st.1 < (nv.pfx.bits : Int) →
      (nv.pfx.bits : Int) ≤ (getLoop a n bs st).1 ∧
        (getLoop a n bs st).2.2 = true := by
  intro m
  induction m with
  | nil => intro bs ℓ n st nv _ hm; exact absurd rfl hm
  | cons b m' ih =>
    intro bs ℓ n st nv hp hm htake hs hc hlt
    cases n with
    | nil => simp [storedAt] at hs
    | node c0 c1 v =>
      rcases bs with - | ⟨b0, bs'⟩
      · simp at htake
      · rw [List.length_cons, List.take_succ_cons] at htake
        obtain ⟨hb0, htake'⟩ : b = b0 ∧ m' = bs'.take m'.length :=
          ⟨(List.cons.injEq _ _ _ _ ▸ htake).1,
            (List.cons.injEq _ _ _ _ ▸ htake).2⟩
        subst hb0
        simp only [storedAt] at hs
        simp only [placedFrom, Bool.and_eq_true] at hp
        have hpchild : placedFrom fam (ℓ ++ [b]) (if b then c1 else c0)
            = true := by
          cases b
          · simpa using hp.1.2
          · simpa using hp.2
        rcases hchild : (if b then c1 else c0) with - | ⟨d0, d1, w⟩
        · rw [hchild] at hs; simp [storedAt] at hs
        · rw [hchild] at hs hpchild
          rw [getLoop_cons_node a b bs' st c0 c1 v d0 d1 w hchild]
          by_cases hm'nil : m' = []
          · -- the stored value sits in the entered child itself
            subst hm'nil
            simp only [storedAt] at hs
            subst hs
            have hupd : bestUpd a (some nv) st
                = ((nv.pfx.bits : Int), nv.key, true) := by
              simp [bestUpd, hc, hlt]
            rw [hupd]
            have hmono := getLoop_mono a bs' (.node d0 d1 (some nv))
              ((nv.pfx.bits : Int), nv.key, true)
            exact ⟨hmono.1, hmono.2 rfl⟩
          · -- the stored value is deeper: the one step keeps the bound
            have hlt' : (bestUpd a w st).1 < (nv.pfx.bits : Int) := by
                rcases bestUpd_cases a w st with h' | ⟨nv0, hw, -, -, h'⟩
                · rw [h']; exact hlt
                · rw [h']
                  have hplaced0 := placed_storedAt (m := ([] : List Bool))
                    hpchild (by simpa [storedAt] using hw)
                  have hplacednv := placed_storedAt (m := m') hpchild hs
                  have h0 := congrArg List.length hplaced0.2.2
                  have h1 := congrArg List.length hplacednv.2.2
                  simp only [length_pfxPath, List.length_append,
                    List.length_cons, List.length_nil] at h0 h1
                  have hm'len : 0 < m'.length :=
                    List.length_pos.mpr hm'nil
                  simp only [Nat.cast_lt]
                  omega
            exact ih bs' (ℓ ++ [b]) (.node d0 d1 w) (bestUpd a w st) nv
              hpchild hm'nil htake' hs hc hlt'

theorem rootSt_cases (a : Addr) (v : Option NodeValue) :
    rootSt a v = (-1, 0, false) ∨
      ∃ nv, v = some nv ∧ containsA nv.pfx a = true ∧
        rootSt a v = ((nv.pfx.bits : Int), nv.key, true) := by
  cases v with
  | none => exact Or.inl rfl
  | some nv =>
    by_cases h : containsA nv.pfx a = true
    · exact Or.inr ⟨nv, rfl, h, by simp [rootSt, h]⟩
    · exact Or.inl (by simp [rootSt, h])

theorem trieGet_node (t : TrieCore) (a : Addr) (c0 c1 : TrieN)
    (v : Option NodeValue) (h : getRootNode t a = .node c0 c1 v) :
    trieGet t a
      = ((getLoop a (.node c0 c1 v) (addrPath a) (rootSt a v)).2.1,
         (getLoop a (.node c0 c1 v) (addrPath a) (rootSt a v)).2.2) := by
  simp only [trieGet, h, rootSt]

theorem maxMatchBits_storedAt {a : Addr} {d : Nat} :
    ∀ {m : List Bool} {n : TrieN} {nv : NodeValue},
      maxMatchBits a d n = true → storedAt n m = some nv →
      containsA nv.pfx a = true → nv.pfx.bits ≤ d := by
  intro m
  induction m with
  | nil =>
    intro n nv hmax hs hc
    cases n with
    | nil => simp [storedAt] at hs
    | node c0 c1 v =>
      simp only [storedAt] at hs
      subst hs
      simp only [maxMatchBits, Bool.and_eq_true] at hmax
      rcases (Bool.or_eq_true _ _).mp hmax.1.1 with h | h
      · rw [hc] at h; simp at h
      · exact of_decide_eq_true h
  | cons b bs ih =>
    intro n nv hmax hs hc
    cases n with
    | nil => simp [storedAt] at hs
    | node c0 c1 v =>
      simp only [storedAt] at hs
      simp only [maxMatchBits, Bool.and_eq_true] at hmax
      cases b
      · exact ih hmax.1.2 (by simpa using hs) hc
      · exact ih hmax.2 (by simpa using hs) hc

/-- Longest-prefix-match correctness of the trie core: under the
placement invariant, if `p` is bound to key `k`, contains `a`, and no
stored prefix containing `a` is longer, then `get` returns `(k, true)`. -/
theorem trieGet_finds (t : TrieCore) (a : Addr) (p : Pfx) (k : Int)
    (hplaced : placedFrom a.is4 [] (getRootNode t a) = true)
    (hb : storedAt (getRootNode t a) (pfxPath p) = some ⟨p, k⟩)
    (hcont : containsA p a = true)
    (hmax : maxMatchBits a p.bits (getRootNode t a) = true) :
    trieGet t a = (k, true) := by
  have hwf : WFPfx p := (placed_storedAt hplaced hb).2.1
  have htake : pfxPath p = (addrPath a).take p.bits :=
    pfxPath_eq_take hwf hcont
  rcases hroot : getRootNode t a with - | ⟨c0, c1, v⟩
  · rw [hroot] at hb; simp [storedAt] at hb
  · rw [hroot] at hplaced hb hmax
    rw [trieGet_node t a c0 c1 v hroot]
    by_cases hz : p.bits = 0
    · -- a zero-length prefix sits at the root itself
      have hpnil : pfxPath p = [] := by
        have h0 : (pfxPath p).length = 0 := by simp [hz]
        exact List.eq_nil_of_length_eq_zero h0
      rw [hpnil] at hb
      simp only [storedAt] at hb
      subst hb
      have hst0 : rootSt a (some ⟨p, k⟩) = ((p.bits : Int), k, true) := by
        simp [rootSt, hcont]
      rcases getLoop_sound a (addrPath a) (.node c0 c1 (some ⟨p, k⟩))
          (rootSt a (some ⟨p, k⟩)) with h | ⟨j, nv, hj, hs, hc, h⟩
      · rw [h, hst0]
      · exfalso
        have hle := maxMatchBits_storedAt hmax hs hc
        have hlen := congrArg List.length (placed_storedAt hplaced hs).2.2
        simp only [length_pfxPath, List.nil_append, List.length_take,
          length_addrPath] at hlen
        rw [length_addrPath] at hj
        omega
    · -- the prefix is strictly below the root
      have hbits1 : 1 ≤ p.bits := Nat.one_le_iff_ne_zero.mpr hz
      have hst0lt : (rootSt a v).1 < (p.bits : Int) := by
        rcases rootSt_cases a v with h | ⟨nv0, hv, hc0, h⟩
        · rw [h]
          show (-1 : Int) < (p.bits : Int)
          omega
        · rw [h]
          show ((nv0.pfx.bits : Int)) < (p.bits : Int)
          have hpl := placed_storedAt (m := ([] : List Bool)) hplaced
            (by simpa [storedAt] using hv)
          have h0 := congrArg List.length hpl.2.2
          simp only [length_pfxPath, List.append_nil, List.length_nil]
            at h0
          omega
      have hmne : pfxPath p ≠ [] := by
        intro hnil
        have h0 := congrArg List.length hnil
        simp only [length_pfxPath, List.length_nil] at h0
        exact hz h0
      have hmtake : pfxPath p = (addrPath a).take (pfxPath p).length := by
        rw [length_pfxPath]; exact htake
      have hreach := getLoop_reach a a.is4 (pfxPath p) (addrPath a) []
        (.node c0 c1 v) (rootSt a v) ⟨p, k⟩ hplaced hmne hmtake hb hcont
        hst0lt
      rcases getLoop_sound a (addrPath a) (.node c0 c1 v) (rootSt a v)
          with h | ⟨j, nv, hj, hs, hc, h⟩
      · exfalso
        rw [h] at hreach
        exact absurd hreach.1 (not_le.mpr hst0lt)
      · have hle := maxMatchBits_storedAt hmax hs hc
        have hge : p.bits ≤ nv.pfx.bits := by
          have h1 := hreach.1
          rw [h] at h1
          have h2 : ((p.bits : Int)) ≤ ((nv.pfx.bits : Int)) := h1
          exact_mod_cast h2
        have heq : nv.pfx.bits = p.bits := le_antisymm hle hge
        have hlen := congrArg List.length (placed_storedAt hplaced hs).2.2
        simp only [length_pfxPath, List.nil_append, List.length_take,
          length_addrPath] at hlen
        rw [length_addrPath] at hj
        have hjp : j + 1 = p.bits := by omega
        have hpath : (addrPath a).take (j + 1) = pfxPath p := by
          rw [hjp]; exact htake.symm
        rw [hpath, hb] at hs
        have hnv : nv = ⟨p, k⟩ := (Option.some.inj hs).symm
        subst hnv
        rw [h]

/-! ## Insert lemmas -/

@[simp] theorem placedFrom_nil (fam : Bool) (ℓ : List Bool) :
    placedFrom fam ℓ .nil = true := rfl

theorem placedFrom_node (fam : Bool) (ℓ : List Bool) (c0 c1 : TrieN)
    (v : Option NodeValue) :
    placedFrom fam ℓ (.node c0 c1 v) = true ↔
      (∀ nv, v = some nv →
        nv.pfx.addr.is4 = fam ∧ WFPfx nv.pfx ∧ pfxPath nv.pfx = ℓ) ∧
      placedFrom fam (ℓ ++ [false]) c0 = true ∧
      placedFrom fam (ℓ ++ [true]) c1 = true := by
  cases v with
  | none => simp [placedFrom]
  | some nv => (simp [placedFrom]; tauto)

theorem insertPath_storedAt_self (nv : NodeValue) :
    ∀ (bs : List Bool) (n : TrieN),
      storedAt (insertPath n bs nv).1 bs = some nv := by
  intro bs
  induction bs with
  | nil => intro n; cases n <;> simp [insertPath, storedAt]
  | cons b bs ih =>
    intro n
    cases n with
    | nil => cases b <;> simp [insertPath, storedAt, ih]
    | node c0 c1 v => cases b <;> simp [insertPath, storedAt, ih]

theorem insertPath_snd (nv : NodeValue) :
    ∀ (bs : List Bool) (n : TrieN),
      (insertPath n bs nv).2 = (storedAt n bs).map NodeValue.key := by
  intro bs
  induction bs with
  | nil => intro n; cases n <;> simp [insertPath, storedAt]
  | cons b bs ih =>
    intro n
    cases n with
    | nil => cases b <;> simp [insertPath, storedAt, ih]
    | node c0 c1 v => cases b <;> simp [insertPath, storedAt, ih]

theorem insertPath_placed (fam : Bool) (nv : NodeValue)
    (hfam : nv.pfx.addr.is4 = fam) (hwf : WFPfx nv.pfx) :
    ∀ (bs ℓ : List Bool) (n : TrieN),
      placedFrom fam ℓ n = true →
      pfxPath nv.pfx = ℓ ++ bs →
      placedFrom fam ℓ (insertPath n bs nv).1 = true := by
  intro bs
  induction bs with
  | nil =>
    intro ℓ n hp hpath
    rw [List.append_nil] at hpath
    cases n with
    | nil =>
      simp only [insertPath]
      rw [placedFrom_node]
      refine ⟨?_, by simp, by simp⟩
      rintro nv' hnv'
      cases hnv'
      exact ⟨hfam, hwf, hpath⟩
    | node c0 c1 v =>
      simp only [insertPath]
      rw [placedFrom_node] at hp ⊢
      refine ⟨?_, hp.2.1, hp.2.2⟩
      rintro nv' hnv'
      cases hnv'
      exact ⟨hfam, hwf, hpath⟩
  | cons b bs ih =>
    intro ℓ n hp hpath
    cases n with
    | nil =>
      cases b
      · show placedFrom fam ℓ
          (.node (insertPath TrieN.nil bs nv).1 TrieN.nil none) = true
        rw [placedFrom_node]
        refine ⟨by rintro nv' ⟨⟩, ?_, by simp⟩
        exact ih (ℓ ++ [false]) .nil (by simp) (by simpa using hpath)
      · show placedFrom fam ℓ
          (.node TrieN.nil (insertPath TrieN.nil bs nv).1 none) = true
        rw [placedFrom_node]
        refine ⟨by rintro nv' ⟨⟩, by simp, ?_⟩
        exact ih (ℓ ++ [true]) .nil (by simp) (by simpa using hpath)
    | node c0 c1 v =>
      rw [placedFrom_node] at hp
      cases b
      · show placedFrom fam ℓ (.node (insertPath c0 bs nv).1 c1 v) = true
        rw [placedFrom_node]
        refine ⟨hp.1, ?_, hp.2.2⟩
        exact ih (ℓ ++ [false]) c0 hp.2.1 (by simpa using hpath)
      · show placedFrom fam ℓ (.node c0 (insertPath c1 bs nv).1 v) = true
        rw [placedFrom_node]
        refine ⟨hp.1, hp.2.1, ?_⟩
        exact ih (ℓ ++ [true]) c1 hp.2.2 (by simpa using hpath)

theorem isEmptyNode_some (c0 c1 : TrieN) (nv : NodeValue) :
    isEmptyNode (.node c0 c1 (some nv)) = false := by
  cases c0 <;> cases c1 <;> rfl

theorem isEmptyNode_child0 (c1 : TrieN) (d0 d1 : TrieN)
    (w : Option NodeValue) (v : Option NodeValue) :
    isEmptyNode (.node (.node d0 d1 w) c1 v) = false := by
  cases c1 <;> cases v <;> rfl

theorem isEmptyNode_child1 (c0 : TrieN) (d0 d1 : TrieN)
    (w : Option NodeValue) (v : Option NodeValue) :
    isEmptyNode (.node c0 (.node d0 d1 w) v) = false := by
  cases c0 <;> cases v <;> rfl

theorem insertPath_ne_nil (nv : NodeValue) (bs : List Bool) (n : TrieN) :
    (insertPath n bs nv).1 ≠ .nil := by
  cases bs with
  | nil => cases n <;> simp [insertPath]
  | cons b bs =>
    cases n with
    | nil => cases b <;> simp [insertPath]
    | node c0 c1 v => cases b <;> simp [insertPath]

theorem wellPruned_node (c0 c1 : TrieN) (v : Option NodeValue) :
    wellPruned (.node c0 c1 v) = true ↔
      isEmptyNode c0 = false ∧ isEmptyNode c1 = false ∧
      wellPruned c0 = true ∧ wellPruned c1 = true := by
  simp only [wellPruned, Bool.and_eq_true, Bool.not_eq_true']
  tauto

theorem insertPath_not_empty (nv : NodeValue) (bs : List Bool) (n : TrieN) :
    isEmptyNode (insertPath n bs nv).1 = false := by
  cases bs with
  | nil =>
    cases n with
    | nil => rfl
    | node c0 c1 v => exact isEmptyNode_some c0 c1 nv
  | cons b bs =>
    cases n with
    | nil =>
      cases b
      · show isEmptyNode (.node (insertPath TrieN.nil bs nv).1 .nil none)
          = false
        rcases hX : (insertPath TrieN.nil bs nv).1 with - | ⟨x0, x1, xv⟩
        · exact absurd hX (insertPath_ne_nil nv bs .nil)
        · exact isEmptyNode_child0 .nil x0 x1 xv none
      · show isEmptyNode (.node .nil (insertPath TrieN.nil bs nv).1 none)
          = false
        rcases hX : (insertPath TrieN.nil bs nv).1 with - | ⟨x0, x1, xv⟩
        · exact absurd hX (insertPath_ne_nil nv bs .nil)
        · exact isEmptyNode_child1 .nil x0 x1 xv none
    | node c0 c1 v =>
      cases b
      · show isEmptyNode (.node (insertPath c0 bs nv).1 c1 v) = false
        rcases hX : (insertPath c0 bs nv).1 with - | ⟨x0, x1, xv⟩
        · exact absurd hX (insertPath_ne_nil nv bs c0)
        · exact isEmptyNode_child0 c1 x0 x1 xv v
      · show isEmptyNode (.node c0 (insertPath c1 bs nv).1 v) = false
        rcases hX : (insertPath c1 bs nv).1 with - | ⟨x0, x1, xv⟩
        · exact absurd hX (insertPath_ne_nil nv bs c1)
        · exact isEmptyNode_child1 c0 x0 x1 xv v

theorem insertPath_wellPruned (nv : NodeValue) :
    ∀ (bs : List Bool) (n : TrieN),
      wellPruned n = true → wellPruned (insertPath n bs nv).1 = true := by
  intro bs
  induction bs with
  | nil =>
    intro n hw
    cases n with
    | nil => rfl
    | node c0 c1 v =>
      show wellPruned (.node c0 c1 (some nv)) = true
      rw [wellPruned_node] at hw ⊢
      exact hw
  | cons b bs ih =>
    intro n hw
    cases n with
    | nil =>
      cases b
      · show wellPruned
          (.node (insertPath TrieN.nil bs nv).1 TrieN.nil none) = true
        rw [wellPruned_node]
        exact ⟨insertPath_not_empty nv bs .nil, rfl, ih .nil rfl, rfl⟩
      · show wellPruned
          (.node TrieN.nil (insertPath TrieN.nil bs nv).1 none) = true
        rw [wellPruned_node]
        exact ⟨rfl, insertPath_not_empty nv bs .nil, rfl, ih .nil rfl⟩
    | node c0 c1 v =>
      rw [wellPruned_node] at hw
      cases b
      · show wellPruned (.node (insertPath c0 bs nv).1 c1 v) = true
        rw [wellPruned_node]
        exact ⟨insertPath_not_empty nv bs c0, hw.2.1, ih c0 hw.2.2.1,
          hw.2.2.2⟩
      · show wellPruned (.node c0 (insertPath c1 bs nv).1 v) = true
        rw [wellPruned_node]
        exact ⟨hw.1, insertPath_not_empty nv bs c1, hw.2.2.1,
          ih c1 hw.2.2.2⟩

/-! ## Remove lemmas -/

theorem isEmptyNode_iff (n : TrieN) :
    isEmptyNode n = true ↔ n = .node .nil .nil none := by
  rcases n with - | ⟨c0, c1, v⟩
  · simp [isEmptyNode]
  · cases c0 <;> cases c1 <;> cases v <;> simp [isEmptyNode]

theorem pruneN_not_empty (n : TrieN) : isEmptyNode (pruneN n) = false := by
  by_cases h : isEmptyNode n = true
  · rw [pruneN, if_pos h]; rfl
  · rw [pruneN, if_neg h]; simpa using h

theorem wellPruned_pruneN (n : TrieN) (hw : wellPruned n = true) :
    wellPruned (pruneN n) = true := by
  by_cases h : isEmptyNode n = true
  · rw [pruneN, if_pos h]; rfl
  · rw [pruneN, if_neg h]; exact hw

theorem storedAt_pruneN (n : TrieN) (ℓ : List Bool) :
    storedAt (pruneN n) ℓ = storedAt n ℓ := by
  by_cases h : isEmptyNode n = true
  · rw [pruneN, if_pos h]
    rw [isEmptyNode_iff] at h
    subst h
    cases ℓ with
    | nil => rfl
    | cons b bs => cases b <;> simp [storedAt]
  · rw [pruneN, if_neg h]

theorem removePath_not_empty (p : Pfx) (bs : List Bool) (n : TrieN)
    (r : TrieN × Int) (hr : removePath n bs p = some r) :
    isEmptyNode r.1 = false := by
  cases bs with
  | nil =>
    cases n with
    | nil => simp [removePath] at hr
    | node c0 c1 v =>
      rcases v with - | nv
      · simp [removePath] at hr
      · simp only [removePath] at hr
        split at hr
        · injection hr with hr'
          have hr1 : r.1 = pruneN (.node c0 c1 none) := by rw [← hr']
          rw [hr1]
          exact pruneN_not_empty _
        · exact Option.noConfusion hr
  | cons b bs =>
    cases n with
    | nil => simp [removePath] at hr
    | node c0 c1 v =>
      simp only [removePath] at hr
      split at hr
      · exact Option.noConfusion hr
      · next rc hrc =>
        injection hr with hr'
        have hr1 : r.1
            = pruneN (if b then .node c0 rc.1 v else .node rc.1 c1 v) := by
          rw [← hr']
        rw [hr1]
        exact pruneN_not_empty _

theorem removePath_some_stored (p : Pfx) :
    ∀ (bs : List Bool) (n : TrieN) (r : TrieN × Int),
      removePath n bs p = some r → storedAt n bs = some ⟨p, r.2⟩ := by
  intro bs
  induction bs with
  | nil =>
    intro n r hr
    cases n with
    | nil => simp [removePath] at hr
    | node c0 c1 v =>
      rcases v with - | nv
      · simp [removePath] at hr
      · simp only [removePath] at hr
        split at hr
        · next hpp =>
          injection hr with hr'
          have hr2 : r.2 = nv.key := by rw [← hr']
          rw [hr2]
          simp only [storedAt]
          have hpf : nv = ⟨p, nv.key⟩ := by
            cases nv with
            | mk pf k0 =>
              have hpf2 : pf = p := hpp
              subst hpf2
              rfl
          rw [← hpf]
        · exact Option.noConfusion hr
  | cons b bs ih =>
    intro n r hr
    cases n with
    | nil => simp [removePath] at hr
    | node c0 c1 v =>
      simp only [removePath] at hr
      split at hr
      · exact Option.noConfusion hr
      · next rc hrc =>
        injection hr with hr'
        have hr2 : r.2 = rc.2 := by rw [← hr']
        rw [show storedAt (TrieN.node c0 c1 v) (b :: bs)
            = storedAt (if b then c1 else c0) bs from rfl, hr2]
        exact ih (if b then c1 else c0) rc hrc

theorem removePath_of_stored (p : Pfx) :
    ∀ (bs : List Bool) (n : TrieN) (k : Int),
      storedAt n bs = some ⟨p, k⟩ →
      ∃ n', removePath n bs p = some (n', k) := by
  intro bs
  induction bs with
  | nil =>
    intro n k hs
    cases n with
    | nil => simp [storedAt] at hs
    | node c0 c1 v =>
      simp only [storedAt] at hs
      subst hs
      exact ⟨pruneN (.node c0 c1 none), by simp [removePath]⟩
  | cons b bs ih =>
    intro n k hs
    cases n with
    | nil => simp [storedAt] at hs
    | node c0 c1 v =>
      simp only [storedAt] at hs
      obtain ⟨n', hn'⟩ := ih (if b then c1 else c0) k hs
      refine ⟨pruneN (if b then .node c0 n' v else .node n' c1 v), ?_⟩
      simp only [removePath, hn']

theorem removePath_none_of_not_stored (p : Pfx) :
    ∀ (bs : List Bool) (n : TrieN),
      (∀ k, storedAt n bs ≠ some ⟨p, k⟩) →
      removePath n bs p = none := by
  intro bs
  induction bs with
  | nil =>
    intro n hs
    cases n with
    | nil => rfl
    | node c0 c1 v =>
      rcases v with - | nv
      · rfl
      · simp only [removePath]
        rw [if_neg]
        intro hpp
        apply hs nv.key
        simp only [storedAt]
        cases nv with
        | mk pf k0 =>
          have hpf2 : pf = p := hpp
          subst hpf2
          rfl
  | cons b bs ih =>
    intro n hs
    cases n with
    | nil => rfl
    | node c0 c1 v =>
      simp only [removePath]
      rw [ih (if b then c1 else c0) (by simpa only [storedAt] using hs)]

theorem removePath_wellPruned (p : Pfx) :
    ∀ (bs : List Bool) (n : TrieN) (r : TrieN × Int),
      removePath n bs p = some r → wellPruned n = true →
      wellPruned r.1 = true := by
  intro bs
  induction bs with
  | nil =>
    intro n r hr hw
    cases n with
    | nil => simp [removePath] at hr
    | node c0 c1 v =>
      rcases v with - | nv
      · simp [removePath] at hr
      · simp only [removePath] at hr
        split at hr
        · injection hr with hr'
          have hr1 : r.1 = pruneN (.node c0 c1 none) := by rw [← hr']
          rw [hr1]
          apply wellPruned_pruneN
          rw [wellPruned_node] at hw ⊢
          exact hw
        · exact Option.noConfusion hr
  | cons b bs ih =>
    intro n r hr hw
    cases n with
    | nil => simp [removePath] at hr
    | node c0 c1 v =>
      simp only [removePath] at hr
      split at hr
      · exact Option.noConfusion hr
      · next rc hrc =>
        injection hr with hr'
        have hr1 : r.1
            = pruneN (if b then .node c0 rc.1 v else .node rc.1 c1 v) := by
          rw [← hr']
        rw [hr1]
        apply wellPruned_pruneN
        rw [wellPruned_node] at hw
        have hne := removePath_not_empty p bs (if b then c1 else c0) rc hrc
        cases b with
        | false =>
          have hwc := ih c0 rc hrc hw.2.2.1
          show wellPruned (TrieN.node rc.1 c1 v) = true
          rw [wellPruned_node]
          exact ⟨hne, hw.2.1, hwc, hw.2.2.2⟩
        | true =>
          have hwc := ih c1 rc hrc hw.2.2.2
          show wellPruned (TrieN.node c0 rc.1 v) = true
          rw [wellPruned_node]
          exact ⟨hw.1, hne, hw.2.2.1, hwc⟩

theorem removePath_storedAt (p : Pfx) :
    ∀ (bs : List Bool) (n : TrieN) (r : TrieN × Int),
      removePath n bs p = some r →
      ∀ ℓ, storedAt r.1 ℓ = if ℓ = bs then none else storedAt n ℓ := by
  intro bs
  induction bs with
  | nil =>
    intro n r hr ℓ
    cases n with
    | nil => simp [removePath] at hr
    | node c0 c1 v =>
      rcases v with - | nv
      · simp [removePath] at hr
      · simp only [removePath] at hr
        split at hr
        · injection hr with hr'
          have hr1 : r.1 = pruneN (.node c0 c1 none) := by rw [← hr']
          rw [hr1, storedAt_pruneN]
          cases ℓ with
          | nil => simp [storedAt]
          | cons b' ℓ' => cases b' <;> simp [storedAt]
        · exact Option.noConfusion hr
  | cons b bs ih =>
    intro n r hr ℓ
    cases n with
    | nil => simp [removePath] at hr
    | node c0 c1 v =>
      simp only [removePath] at hr
      split at hr
      · exact Option.noConfusion hr
      · next rc hrc =>
        injection hr with hr'
        have hr1 : r.1
            = pruneN (if b then .node c0 rc.1 v else .node rc.1 c1 v) := by
          rw [← hr']
        rw [hr1, storedAt_pruneN]
        cases b with
        | false =>
          have hih := ih c0 rc hrc
          cases ℓ with
          | nil => simp [storedAt]
          | cons b' ℓ' =>
            cases b' with
            | false => simp [storedAt, hih ℓ']
            | true => simp [storedAt]
        | true =>
          have hih := ih c1 rc hrc
          cases ℓ with
          | nil => simp [storedAt]
          | cons b' ℓ' =>
            cases b' with
            | false => simp [storedAt]
            | true => simp [storedAt, hih ℓ']

theorem placedFrom_pruneN (fam : Bool) (ℓ : List Bool) (n : TrieN)
    (hp : placedFrom fam ℓ n = true) :
    placedFrom fam ℓ (pruneN n) = true := by
  by_cases h : isEmptyNode n = true
  · rw [pruneN, if_pos h]; rfl
  · rw [pruneN, if_neg h]; exact hp

theorem removePath_placed (fam : Bool) (p : Pfx) :
    ∀ (bs ℓ : List Bool) (n : TrieN) (r : TrieN × Int),
      removePath n bs p = some r → placedFrom fam ℓ n = true →
      placedFrom fam ℓ r.1 = true := by
  intro bs
  induction bs with
  | nil =>
    intro ℓ n r hr hp
    cases n with
    | nil => simp [removePath] at hr
    | node c0 c1 v =>
      rcases v with - | nv
      · simp [removePath] at hr
      · simp only [removePath] at hr
        split at hr
        · injection hr with hr'
          have hr1 : r.1 = pruneN (.node c0 c1 none) := by rw [← hr']
          rw [hr1]
          apply placedFrom_pruneN
          rw [placedFrom_node] at hp ⊢
          exact ⟨by rintro nv' ⟨⟩, hp.2.1, hp.2.2⟩
        · exact Option.noConfusion hr
  | cons b bs ih =>
    intro ℓ n r hr hp
    cases n with
    | nil => simp [removePath] at hr
    | node c0 c1 v =>
      simp only [removePath] at hr
      split at hr
      · exact Option.noConfusion hr
      · next rc hrc =>
        injection hr with hr'
        have hr1 : r.1
            = pruneN (if b then .node c0 rc.1 v else .node rc.1 c1 v) := by
          rw [← hr']
        rw [hr1]
        apply placedFrom_pruneN
        rw [placedFrom_node] at hp
        cases b with
        | false =>
          show placedFrom fam ℓ (.node rc.1 c1 v) = true
          rw [placedFrom_node]
          exact ⟨hp.1, ih (ℓ ++ [false]) c0 rc hrc hp.2.1, hp.2.2⟩
        | true =>
          show placedFrom fam ℓ (.node c0 rc.1 v) = true
          rw [placedFrom_node]
          exact ⟨hp.1, hp.2.1, ih (ℓ ++ [true]) c1 rc hrc hp.2.2⟩

theorem storedAt_keepRoot (n : TrieN) (ℓ : List Bool) :
    storedAt (keepRoot n) ℓ = storedAt n ℓ := by
  cases n with
  | nil =>
    show storedAt (.node .nil .nil none) ℓ = storedAt .nil ℓ
    cases ℓ with
    | nil => rfl
    | cons b bs => cases b <;> simp [storedAt]
  | node c0 c1 v => rfl

theorem wellPruned_keepRoot (n : TrieN) (hw : wellPruned n = true) :
    wellPruned (keepRoot n) = true := by
  cases n with
  | nil => rfl
  | node c0 c1 v => exact hw

theorem placedFrom_keepRoot (fam : Bool) (n : TrieN)
    (hp : placedFrom fam [] n = true) :
    placedFrom fam [] (keepRoot n) = true := by
  cases n with
  | nil =>
    show placedFrom fam [] (.node .nil .nil none) = true
    rw [placedFrom_node]
    exact ⟨by rintro nv' ⟨⟩, rfl, rfl⟩
  | node c0 c1 v => exact hp

@[simp] theorem coreRoot_true (t : TrieCore) :
    coreRoot t true = t.ipv4Root := rfl

@[simp] theorem coreRoot_false (t : TrieCore) :
    coreRoot t false = t.ipv6Root := rfl

@[simp] theorem rootOf_true {V : Type} (t : TrieMapS V) :
    rootOf t true = t.trie.ipv4Root := rfl

@[simp] theorem rootOf_false {V : Type} (t : TrieMapS V) :
    rootOf t false = t.trie.ipv6Root := rfl

theorem nodeValue_eta (nv : NodeValue) (p : Pfx) (h : nv.pfx = p) :
    nv = ⟨p, nv.key⟩ := by
  cases nv with
  | mk pf k0 =>
    have h2 : pf = p := h
    subst h2
    rfl

theorem trieRemove_not_found (t : TrieCore) (p : Pfx)
    (h : ∀ k, storedAt (coreRoot t p.addr.is4) (pfxPath p) ≠ some ⟨p, k⟩) :
    trieRemove t p = (t, -1, false) := by
  obtain ⟨r4, r6, refs⟩ := t
  by_cases hfam : p.addr.is4 = true
  · simp only [hfam, coreRoot_true] at h
    simp only [trieRemove]
    rw [if_pos hfam]
    cases r4 with
    | nil => rfl
    | node c0 c1 v =>
      have hnone := removePath_none_of_not_stored p (pfxPath p)
        (.node c0 c1 v) h
      simp only [hnone]
  · have hfam' : p.addr.is4 = false := by simpa using hfam
    simp only [hfam', coreRoot_false] at h
    simp only [trieRemove]
    rw [if_neg hfam]
    cases r6 with
    | nil => rfl
    | node c0 c1 v =>
      have hnone := removePath_none_of_not_stored p (pfxPath p)
        (.node c0 c1 v) h
      simp only [hnone]

theorem trieRemove_found (t : TrieCore) (p : Pfx) (k : Int)
    (h : storedAt (coreRoot t p.addr.is4) (pfxPath p) = some ⟨p, k⟩) :
    (trieRemove t p).2.1 = k ∧ (trieRemove t p).2.2 = true ∧
      (∀ ℓ, storedAt (coreRoot (trieRemove t p).1 p.addr.is4) ℓ
          = if ℓ = pfxPath p then none
            else storedAt (coreRoot t p.addr.is4) ℓ) ∧
      coreRoot (trieRemove t p).1 (!p.addr.is4)
        = coreRoot t (!p.addr.is4) := by
  obtain ⟨r4, r6, refs⟩ := t
  by_cases hfam : p.addr.is4 = true
  · simp only [hfam, coreRoot_true, Bool.not_true, coreRoot_false] at h ⊢
    cases r4 with
    | nil => simp [storedAt] at h
    | node c0 c1 v =>
      obtain ⟨n', hn'⟩ := removePath_of_stored p (pfxPath p) (.node c0 c1 v) k h
      have e1 : trieRemove ⟨TrieN.node c0 c1 v, r6, refs⟩ p
          = ({ ipv4Root := keepRoot n', ipv6Root := r6,
               keyRefs := if refsGet (refsDec refs k) k == 0
                          then adel (refsDec refs k) k
                          else refsDec refs k }, k, true) := by
        simp only [trieRemove]
        rw [if_pos hfam]
        simp only [hn']
      rw [e1]
      refine ⟨rfl, rfl, fun ℓ => ?_, rfl⟩
      exact (storedAt_keepRoot n' ℓ).trans
        (removePath_storedAt p (pfxPath p) (.node c0 c1 v) (n', k) hn' ℓ)
  · have hfam' : p.addr.is4 = false := by simpa using hfam
    simp only [hfam', coreRoot_false, Bool.not_false, coreRoot_true] at h ⊢
    cases r6 with
    | nil => simp [storedAt] at h
    | node c0 c1 v =>
      obtain ⟨n', hn'⟩ := removePath_of_stored p (pfxPath p) (.node c0 c1 v) k h
      have e1 : trieRemove ⟨r4, TrieN.node c0 c1 v, refs⟩ p
          = ({ ipv4Root := r4, ipv6Root := keepRoot n',
               keyRefs := if refsGet (refsDec refs k) k == 0
                          then adel (refsDec refs k) k
                          else refsDec refs k }, k, true) := by
        simp only [trieRemove]
        rw [if_neg hfam]
        simp only [hn']
      rw [e1]
      refine ⟨rfl, rfl, fun ℓ => ?_, rfl⟩
      exact (storedAt_keepRoot n' ℓ).trans
        (removePath_storedAt p (pfxPath p) (.node c0 c1 v) (n', k) hn' ℓ)

/-- Each root of the core after `remove` is either untouched or the
pruned result of a successful `removePath` on it (kept by `keepRoot`). -/
theorem trieRemove_roots (t : TrieCore) (p : Pfx) :
    ((trieRemove t p).1.ipv4Root = t.ipv4Root ∨
      ∃ r, removePath t.ipv4Root (pfxPath p) p = some r ∧
        (trieRemove t p).1.ipv4Root = keepRoot r.1) ∧
    ((trieRemove t p).1.ipv6Root = t.ipv6Root ∨
      ∃ r, removePath t.ipv6Root (pfxPath p) p = some r ∧
        (trieRemove t p).1.ipv6Root = keepRoot r.1) := by
  obtain ⟨r4, r6, refs⟩ := t
  by_cases hfam : p.addr.is4 = true
  · cases r4 with
    | nil =>
      constructor
      · left
        simp only [trieRemove]
        rw [if_pos hfam]
      · left
        simp only [trieRemove]
        rw [if_pos hfam]
    | node c0 c1 v =>
      rcases hrp : removePath (.node c0 c1 v) (pfxPath p) p with - | r
      · constructor
        · left
          simp only [trieRemove]
          rw [if_pos hfam]
          simp only [hrp]
        · left
          simp only [trieRemove]
          rw [if_pos hfam]
          simp only [hrp]
      · constructor
        · right
          refine ⟨r, rfl, ?_⟩
          simp only [trieRemove]
          rw [if_pos hfam]
          simp only [hrp]
        · left
          simp only [trieRemove]
          rw [if_pos hfam]
          simp only [hrp]
  · cases r6 with
    | nil =>
      constructor
      · left
        simp only [trieRemove]
        rw [if_neg hfam]
      · left
        simp only [trieRemove]
        rw [if_neg hfam]
    | node c0 c1 v =>
      rcases hrp : removePath (.node c0 c1 v) (pfxPath p) p with - | r
      · constructor
        · left
          simp only [trieRemove]
          rw [if_neg hfam]
          simp only [hrp]
        · left
          simp only [trieRemove]
          rw [if_neg hfam]
          simp only [hrp]
      · constructor
        · left
          simp only [trieRemove]
          rw [if_neg hfam]
          simp only [hrp]
        · right
          refine ⟨r, rfl, ?_⟩
          simp only [trieRemove]
          rw [if_neg hfam]
          simp only [hrp]

theorem trieRemove_placed (t : TrieCore) (p : Pfx)
    (hp4 : placedFrom true [] t.ipv4Root = true)
    (hp6 : placedFrom false [] t.ipv6Root = true) :
    placedFrom true [] (trieRemove t p).1.ipv4Root = true ∧
      placedFrom false [] (trieRemove t p).1.ipv6Root = true := by
  obtain ⟨h4, h6⟩ := trieRemove_roots t p
  constructor
  · rcases h4 with h | ⟨r, hrp, h⟩
    · rw [h]; exact hp4
    · rw [h]
      exact placedFrom_keepRoot true r.1
        (removePath_placed true p (pfxPath p) [] t.ipv4Root r hrp hp4)
  · rcases h6 with h | ⟨r, hrp, h⟩
    · rw [h]; exact hp6
    · rw [h]
      exact placedFrom_keepRoot false r.1
        (removePath_placed false p (pfxPath p) [] t.ipv6Root r hrp hp6)

theorem trieRemove_wellPruned (t : TrieCore) (p : Pfx)
    (hw4 : wellPruned t.ipv4Root = true)
    (hw6 : wellPruned t.ipv6Root = true) :
    wellPruned (trieRemove t p).1.ipv4Root = true ∧
      wellPruned (trieRemove t p).1.ipv6Root = true := by
  obtain ⟨h4, h6⟩ := trieRemove_roots t p
  constructor
  · rcases h4 with h | ⟨r, hrp, h⟩
    · rw [h]; exact hw4
    · rw [h]
      exact wellPruned_keepRoot r.1
        (removePath_wellPruned p (pfxPath p) t.ipv4Root r hrp hw4)
  · rcases h6 with h | ⟨r, hrp, h⟩
    · rw [h]; exact hw6
    · rw [h]
      exact wellPruned_keepRoot r.1
        (removePath_wellPruned p (pfxPath p) t.ipv6Root r hrp hw6)

theorem trieRemove_stored_le (t : TrieCore) (q : Pfx) (f : Bool)
    (ℓ : List Bool) (nv : NodeValue)
    (h : storedAt (coreRoot (trieRemove t q).1 f) ℓ = some nv) :
    storedAt (coreRoot t f) ℓ = some nv := by
  by_cases hex : ∃ k, storedAt (coreRoot t q.addr.is4) (pfxPath q)
      = some ⟨q, k⟩
  · obtain ⟨k, hk⟩ := hex
    have hf := trieRemove_found t q k hk
    by_cases hff : f = q.addr.is4
    · subst hff
      rw [hf.2.2.1 ℓ] at h
      split at h
      · exact Option.noConfusion h
      · exact h
    · have hOther : coreRoot (trieRemove t q).1 f = coreRoot t f := by
        have hfn : f = !q.addr.is4 := by
          cases f <;> cases hq : q.addr.is4 <;> simp_all
        rw [hfn]
        exact hf.2.2.2
      rw [hOther] at h
      exact h
  · push_neg at hex
    rw [trieRemove_not_found t q hex] at h
    exact h

theorem foldRemove_stored_le (f : Bool) (ℓ : List Bool) (nv : NodeValue) :
    ∀ (L : List Pfx) (t : TrieCore),
      storedAt
        (coreRoot (L.foldl (fun acc q => (trieRemove acc q).1) t) f) ℓ
        = some nv →
      storedAt (coreRoot t f) ℓ = some nv := by
  intro L
  induction L with
  | nil => intro t h; exact h
  | cons q L ih =>
    intro t h
    rw [List.foldl_cons] at h
    exact trieRemove_stored_le t q f ℓ nv (ih ((trieRemove t q).1) h)

theorem foldRemove_removes :
    ∀ (L : List Pfx) (t : TrieCore) (p : Pfx) (nv : NodeValue),
      p ∈ L →
      storedAt
        (coreRoot (L.foldl (fun acc q => (trieRemove acc q).1) t)
          p.addr.is4) (pfxPath p) = some nv →
      nv.pfx ≠ p := by
  intro L
  induction L with
  | nil => intro t p nv hmem; simp at hmem
  | cons q L ih =>
    intro t p nv hmem hst heq
    rw [List.foldl_cons] at hst
    rcases List.mem_cons.mp hmem with hpq | hpL
    · subst hpq
      have h1 := foldRemove_stored_le p.addr.is4 (pfxPath p) nv L
        ((trieRemove t p).1) hst
      by_cases hex : ∃ k, storedAt (coreRoot t p.addr.is4) (pfxPath p)
          = some ⟨p, k⟩
      · obtain ⟨k, hk⟩ := hex
        have hf := trieRemove_found t p k hk
        rw [hf.2.2.1 (pfxPath p)] at h1
        simp at h1
      · push_neg at hex
        rw [trieRemove_not_found t p hex] at h1
        rw [nodeValue_eta nv p heq] at h1
        exact hex nv.key h1
    · exact ih ((trieRemove t q).1) p nv hpL hst heq

theorem collectKey_complete (k : Int) :
    ∀ (m : List Bool) (n : TrieN) (nv : NodeValue),
      storedAt n m = some nv → nv.key = k → nv.pfx ∈ collectKey k n := by
  intro m
  induction m with
  | nil =>
    intro n nv hs hk
    cases n with
    | nil => simp [storedAt] at hs
    | node c0 c1 v =>
      simp only [storedAt] at hs
      subst hs
      simp [collectKey, hk]
  | cons b bs ih =>
    intro n nv hs hk
    cases n with
    | nil => simp [storedAt] at hs
    | node c0 c1 v =>
      simp only [storedAt] at hs
      cases b with
      | false =>
        have hmem := ih c0 nv (by simpa using hs) hk
        simp only [collectKey, List.mem_append]
        tauto
      | true =>
        have hmem := ih c1 nv (by simpa using hs) hk
        simp only [collectKey, List.mem_append]
        tauto

/-- After `removeAll key`, no stored value anywhere carries `key`
(placement invariant required: it guarantees the snapshot is complete). -/
theorem removeAll_noKey (t : TrieCore) (k : Int)
    (hp4 : placedFrom true [] t.ipv4Root = true)
    (hp6 : placedFrom false [] t.ipv6Root = true) (f : Bool)
    (ℓ : List Bool) (nv : NodeValue)
    (hst : storedAt (coreRoot (removeAll t k) f) ℓ = some nv) :
    nv.key ≠ k := by
  intro heq
  rw [removeAll] at hst
  have h0 := foldRemove_stored_le f ℓ nv
    (collectKey k t.ipv6Root ++ collectKey k t.ipv4Root) t hst
  have hplaced : placedFrom f [] (coreRoot t f) = true := by
    cases f
    · exact hp6
    · exact hp4
  obtain ⟨hfam, hwf, hpath⟩ := placed_storedAt hplaced h0
  have hmem : nv.pfx ∈ collectKey k (coreRoot t f) :=
    collectKey_complete k ℓ (coreRoot t f) nv h0 heq
  have hmemL : nv.pfx
      ∈ collectKey k t.ipv6Root ++ collectKey k t.ipv4Root := by
    rw [List.mem_append]
    cases f
    · left; exact hmem
    · right; exact hmem
  have hpathnil : pfxPath nv.pfx = ℓ := by simpa using hpath
  refine foldRemove_removes
    (collectKey k t.ipv6Root ++ collectKey k t.ipv4Root) t nv.pfx nv
    hmemL ?_ rfl
  rw [hfam, hpathnil]
  exact hst

theorem removeAll_placed (t : TrieCore) (k : Int)
    (hp4 : placedFrom true [] t.ipv4Root = true)
    (hp6 : placedFrom false [] t.ipv6Root = true) :
    placedFrom true [] (removeAll t k).ipv4Root = true ∧
      placedFrom false [] (removeAll t k).ipv6Root = true := by
  rw [removeAll]
  generalize collectKey k t.ipv6Root ++ collectKey k t.ipv4Root = L
  induction L generalizing t with
  | nil => exact ⟨hp4, hp6⟩
  | cons q L ih =>
    rw [List.foldl_cons]
    have h := trieRemove_placed t q hp4 hp6
    exact ih ((trieRemove t q).1) h.1 h.2

theorem removeAll_wellPruned (t : TrieCore) (k : Int)
    (hw4 : wellPruned t.ipv4Root = true)
    (hw6 : wellPruned t.ipv6Root = true) :
    wellPruned (removeAll t k).ipv4Root = true ∧
      wellPruned (removeAll t k).ipv6Root = true := by
  rw [removeAll]
  generalize collectKey k t.ipv6Root ++ collectKey k t.ipv4Root = L
  induction L generalizing t with
  | nil => exact ⟨hw4, hw6⟩
  | cons q L ih =>
    rw [List.foldl_cons]
    have h := trieRemove_wellPruned t q hw4 hw6
    exact ih ((trieRemove t q).1) h.1 h.2

/-! ## Facade bridges and invariant preservation -/

theorem FInsert_trie {V : Type} [DecidableEq V] (t : TrieMapS V) (p : Pfx)
    (v : V) : (FInsert t p v).trie = trieInsert t.trie p (usedKey t v) := by
  cases h : alookup t.valueToKey v <;> simp [FInsert, usedKey, h]

theorem FInsert_valueToKey {V : Type} [DecidableEq V] (t : TrieMapS V)
    (p : Pfx) (v : V) :
    alookup (FInsert t p v).valueToKey v = some (usedKey t v) := by
  cases h : alookup t.valueToKey v with
  | none => simp [FInsert, usedKey, h, alookup_aset_self]
  | some k => simp [FInsert, usedKey, h]

theorem FRemove_trie {V : Type} [DecidableEq V] (zeroV : V)
    (t : TrieMapS V) (p : Pfx) :
    (FRemove zeroV t p).1.trie = (trieRemove t.trie p).1 := by
  simp only [FRemove]
  split <;> rfl

theorem FRemove_snd {V : Type} [DecidableEq V] (zeroV : V)
    (t : TrieMapS V) (p : Pfx) :
    (FRemove zeroV t p).2 = (trieRemove t.trie p).2.2 := by
  simp only [FRemove]
  split <;> rfl

theorem FRemoveValue_none {V : Type} [DecidableEq V] (t : TrieMapS V)
    (v : V) (h : alookup t.valueToKey v = none) : FRemoveValue t v = t := by
  simp [FRemoveValue, h]

theorem FRemoveValue_some {V : Type} [DecidableEq V] (t : TrieMapS V)
    (v : V) (k : Int) (h : alookup t.valueToKey v = some k) :
    FRemoveValue t v
      = { trie := removeAll t.trie k,
          keyToValue := adel t.keyToValue k,
          valueToKey := adel t.valueToKey v } := by
  simp [FRemoveValue, h]

theorem trieInsert_roots (t : TrieCore) (p : Pfx) (key : Int) :
    coreRoot (trieInsert t p key) p.addr.is4
      = (insertPath (coreRoot t p.addr.is4) (pfxPath p) ⟨p, key⟩).1 ∧
    coreRoot (trieInsert t p key) (!p.addr.is4)
      = coreRoot t (!p.addr.is4) := by
  by_cases hfam : p.addr.is4 = true
  · simp only [hfam, coreRoot_true, Bool.not_true, coreRoot_false]
    constructor
    · simp only [trieInsert]
      rw [if_pos hfam]
    · simp only [trieInsert]
      rw [if_pos hfam]
  · have hfam' : p.addr.is4 = false := by simpa using hfam
    simp only [hfam', coreRoot_false, Bool.not_false, coreRoot_true]
    constructor
    · simp only [trieInsert]
      rw [if_neg hfam]
    · simp only [trieInsert]
      rw [if_neg hfam]

theorem trieInsert_keyRefs (t : TrieCore) (p : Pfx) (key : Int) :
    (trieInsert t p key).keyRefs
      = refsInc (match (insertPath (coreRoot t p.addr.is4) (pfxPath p)
            ⟨p, key⟩).2 with
          | some old => refsDec t.keyRefs old
          | none => t.keyRefs) key := by
  by_cases hfam : p.addr.is4 = true
  · simp [trieInsert, hfam]
  · have hfam' : p.addr.is4 = false := by simpa using hfam
    simp [trieInsert, hfam']

theorem trieInsert_placed (t : TrieCore) (p : Pfx) (key : Int)
    (hwf : WFPfx p)
    (hp4 : placedFrom true [] t.ipv4Root = true)
    (hp6 : placedFrom false [] t.ipv6Root = true) :
    placedFrom true [] (trieInsert t p key).ipv4Root = true ∧
      placedFrom false [] (trieInsert t p key).ipv6Root = true := by
  obtain ⟨hself, hother⟩ := trieInsert_roots t p key
  by_cases hfam : p.addr.is4 = true
  · simp only [hfam, coreRoot_true, Bool.not_true, coreRoot_false]
      at hself hother
    constructor
    · rw [hself]
      exact insertPath_placed true ⟨p, key⟩ hfam hwf (pfxPath p) []
        t.ipv4Root hp4 (by simp)
    · rw [hother]; exact hp6
  · have hfam' : p.addr.is4 = false := by simpa using hfam
    simp only [hfam', coreRoot_false, Bool.not_false, coreRoot_true]
      at hself hother
    constructor
    · rw [hother]; exact hp4
    · rw [hself]
      exact insertPath_placed false ⟨p, key⟩ hfam' hwf (pfxPath p) []
        t.ipv6Root hp6 (by simp)

theorem trieInsert_wellPruned (t : TrieCore) (p : Pfx) (key : Int)
    (hw4 : wellPruned t.ipv4Root = true)
    (hw6 : wellPruned t.ipv6Root = true) :
    wellPruned (trieInsert t p key).ipv4Root = true ∧
      wellPruned (trieInsert t p key).ipv6Root = true := by
  obtain ⟨hself, hother⟩ := trieInsert_roots t p key
  by_cases hfam : p.addr.is4 = true
  · simp only [hfam, coreRoot_true, Bool.not_true, coreRoot_false]
      at hself hother
    exact ⟨by rw [hself]; exact insertPath_wellPruned _ _ _ hw4,
      by rw [hother]; exact hw6⟩
  · have hfam' : p.addr.is4 = false := by simpa using hfam
    simp only [hfam', coreRoot_false, Bool.not_false, coreRoot_true]
      at hself hother
    exact ⟨by rw [hother]; exact hw4,
      by rw [hself]; exact insertPath_wellPruned _ _ _ hw6⟩

/-- Every reachable state satisfies the placement and pruning
invariants on both roots. -/
theorem reachable_inv {V : Type} [DecidableEq V] (zeroV : V)
    (t : TrieMapS V) (hre : Reachable zeroV t) :
    placedFrom true [] t.trie.ipv4Root = true ∧
      placedFrom false [] t.trie.ipv6Root = true ∧
      wellPruned t.trie.ipv4Root = true ∧
      wellPruned t.trie.ipv6Root = true := by
  induction hre with
  | new => exact ⟨rfl, rfl, rfl, rfl⟩
  | @insert t0 p v hwf hre ih =>
    obtain ⟨hp4, hp6, hw4, hw6⟩ := ih
    have hT := FInsert_trie t0 p v
    have hplc := trieInsert_placed t0.trie p (usedKey t0 v) hwf hp4 hp6
    have hwel := trieInsert_wellPruned t0.trie p (usedKey t0 v) hw4 hw6
    rw [hT]
    exact ⟨hplc.1, hplc.2, hwel.1, hwel.2⟩
  | @remove t0 p hre ih =>
    obtain ⟨hp4, hp6, hw4, hw6⟩ := ih
    have hT := FRemove_trie zeroV t0 p
    have hplc := trieRemove_placed t0.trie p hp4 hp6
    have hwel := trieRemove_wellPruned t0.trie p hw4 hw6
    rw [hT]
    exact ⟨hplc.1, hplc.2, hwel.1, hwel.2⟩
  | @removeValue t0 v hre ih =>
    obtain ⟨hp4, hp6, hw4, hw6⟩ := ih
    cases hk : alookup t0.valueToKey v with
    | none =>
      rw [FRemoveValue_none t0 v hk]
      exact ⟨hp4, hp6, hw4, hw6⟩
    | some k =>
      rw [FRemoveValue_some t0 v k hk]
      have hplc := removeAll_placed t0.trie k hp4 hp6
      have hwel := removeAll_wellPruned t0.trie k hw4 hw6
      exact ⟨hplc.1, hplc.2, hwel.1, hwel.2⟩

/-! ## Facade-level lookup lemmas -/

theorem getRootNode_eq_rootOf {V : Type} (t : TrieMapS V) (a : Addr) :
    getRootNode t.trie a = rootOf t a.is4 := rfl

theorem rootOf_eq_coreRoot {V : Type} (t : TrieMapS V) (f : Bool) :
    rootOf t f = coreRoot t.trie f := rfl

/-- Facade version of LPM correctness: shared by several claims. -/
theorem FGet_finds {V : Type} [DecidableEq V] (zeroV : V) (t : TrieMapS V)
    (p : Pfx) (k : Int) (v : V) (a : Addr)
    (hre : Reachable zeroV t)
    (hb : storedAt (rootOf t a.is4) (pfxPath p) = some ⟨p, k⟩)
    (hv : alookup t.keyToValue k = some v)
    (hcont : containsA p a = true)
    (hmax : maxMatchBits a p.bits (rootOf t a.is4) = true) :
    FGet zeroV t a = (v, true) := by
  have hinv := reachable_inv zeroV t hre
  have hplaced : placedFrom a.is4 [] (getRootNode t.trie a) = true := by
    rw [getRootNode_eq_rootOf]
    cases hf : a.is4 with
    | true => simpa using hinv.1
    | false => simpa using hinv.2.1
  have hget := trieGet_finds t.trie a p k hplaced
    (by rw [getRootNode_eq_rootOf]; exact hb) hcont
    (by rw [getRootNode_eq_rootOf]; exact hmax)
  simp only [FGet, hget, hv]
  rfl

theorem noMatchIn_storedAt {a : Addr} :
    ∀ {m : List Bool} {n : TrieN} {nv : NodeValue},
      noMatchIn a n = true → storedAt n m = some nv →
      containsA nv.pfx a = false := by
  intro m
  induction m with
  | nil =>
    intro n nv h hs
    cases n with
    | nil => simp [storedAt] at hs
    | node c0 c1 v =>
      simp only [storedAt] at hs
      subst hs
      simp only [noMatchIn, Bool.and_eq_true] at h
      simpa using h.1.1
  | cons b bs ih =>
    intro n nv h hs
    cases n with
    | nil => simp [storedAt] at hs
    | node c0 c1 v =>
      simp only [storedAt] at hs
      simp only [noMatchIn, Bool.and_eq_true] at h
      cases b
      · exact ih h.1.2 (by simpa using hs)
      · exact ih h.2 (by simpa using hs)

/-- Facade version of the miss behavior: no stored prefix of the
address's family contains it, so `Get` reports `(zero, false)`. -/
theorem FGet_miss {V : Type} [DecidableEq V] (zeroV : V) (t : TrieMapS V)
    (a : Addr) (h : noMatchIn a (rootOf t a.is4) = true) :
    FGet zeroV t a = (zeroV, false) := by
  have hsnd : (trieGet t.trie a).2 = false := by
    rcases hroot : getRootNode t.trie a with - | ⟨c0, c1, v⟩
    · simp [trieGet, hroot]
    · rw [getRootNode_eq_rootOf] at hroot
      rw [hroot] at h
      have hst0 : rootSt a v = (-1, 0, false) := by
        rcases rootSt_cases a v with h0 | ⟨nv0, hv0, hc0, h0⟩
        · exact h0
        · exfalso
          have := noMatchIn_storedAt (m := ([] : List Bool)) h
            (by simpa [storedAt] using hv0)
          rw [hc0] at this
          exact Bool.noConfusion this
      rw [trieGet_node t.trie a c0 c1 v (by rw [getRootNode_eq_rootOf, hroot])]
      rcases getLoop_sound a (addrPath a) (.node c0 c1 v) (rootSt a v)
          with hs | ⟨j, nv, hj, hs, hc, hres⟩
      · rw [hs, hst0]
      · exfalso
        have := noMatchIn_storedAt h hs
        rw [hc] at this
        exact Bool.noConfusion this
  simp [FGet, hsnd]

/-! ## Emptiness lemmas -/

theorem rootEmpty_iff (n : TrieN) :
    rootEmpty n = true ↔ n = .nil ∨ n = .node .nil .nil none := by
  rcases n with - | ⟨c0, c1, v⟩
  · simp [rootEmpty]
  · cases c0 <;> cases c1 <;> cases v <;> simp [rootEmpty]

theorem noValuesIn_of_rootEmpty (n : TrieN) (h : rootEmpty n = true) :
    noValuesIn n = true := by
  rcases (rootEmpty_iff n).mp h with h' | h' <;> subst h' <;> rfl

theorem rootEmpty_of_noValues_wellPruned :
    ∀ n : TrieN, wellPruned n = true → noValuesIn n = true →
      rootEmpty n = true := by
  intro n
  induction n with
  | nil => intro _ _; rfl
  | node c0 c1 v ih0 ih1 =>
    intro hw hv
    simp only [noValuesIn, Bool.and_eq_true] at hv
    have hvn : v = none := Option.isNone_iff_eq_none.mp hv.1.1
    subst hvn
    rw [wellPruned_node] at hw
    have h0 := (rootEmpty_iff c0).mp (ih0 hw.2.2.1 hv.1.2)
    have h1 := (rootEmpty_iff c1).mp (ih1 hw.2.2.2 hv.2)
    have hc0 : c0 = .nil := by
      rcases h0 with h' | h'
      · exact h'
      · exfalso; rw [h'] at hw; exact Bool.noConfusion hw.1
    have hc1 : c1 = .nil := by
      rcases h1 with h' | h'
      · exact h'
      · exfalso; rw [h'] at hw; exact Bool.noConfusion hw.2.1
    subst hc0; subst hc1
    rfl

theorem rootEmpty_some (c0 c1 : TrieN) (nv : NodeValue) :
    rootEmpty (.node c0 c1 (some nv)) = false := by
  cases c0 <;> cases c1 <;> rfl

theorem rootEmpty_child0 (c1 : TrieN) (d0 d1 : TrieN)
    (w : Option NodeValue) (v : Option NodeValue) :
    rootEmpty (.node (.node d0 d1 w) c1 v) = false := by
  cases c1 <;> cases v <;> rfl

theorem rootEmpty_child1 (c0 : TrieN) (d0 d1 : TrieN)
    (w : Option NodeValue) (v : Option NodeValue) :
    rootEmpty (.node c0 (.node d0 d1 w) v) = false := by
  cases c0 <;> cases v <;> rfl

theorem rootEmpty_insertPath (nv : NodeValue) (bs : List Bool) (n : TrieN) :
    rootEmpty (insertPath n bs nv).1 = false := by
  cases bs with
  | nil =>
    cases n with
    | nil => rfl
    | node c0 c1 v => exact rootEmpty_some c0 c1 nv
  | cons b bs =>
    cases n with
    | nil =>
      cases b
      · show rootEmpty (.node (insertPath TrieN.nil bs nv).1 .nil none)
          = false
        rcases hX : (insertPath TrieN.nil bs nv).1 with - | ⟨x0, x1, xv⟩
        · exact absurd hX (insertPath_ne_nil nv bs .nil)
        · exact rootEmpty_child0 .nil x0 x1 xv none
      · show rootEmpty (.node .nil (insertPath TrieN.nil bs nv).1 none)
          = false
        rcases hX : (insertPath TrieN.nil bs nv).1 with - | ⟨x0, x1, xv⟩
        · exact absurd hX (insertPath_ne_nil nv bs .nil)
        · exact rootEmpty_child1 .nil x0 x1 xv none
    | node c0 c1 v =>
      cases b
      · show rootEmpty (.node (insertPath c0 bs nv).1 c1 v) = false
        rcases hX : (insertPath c0 bs nv).1 with - | ⟨x0, x1, xv⟩
        · exact absurd hX (insertPath_ne_nil nv bs c0)
        · exact rootEmpty_child0 c1 x0 x1 xv v
      · show rootEmpty (.node c0 (insertPath c1 bs nv).1 v) = false
        rcases hX : (insertPath c1 bs nv).1 with - | ⟨x0, x1, xv⟩
        · exact absurd hX (insertPath_ne_nil nv bs c1)
        · exact rootEmpty_child1 c0 x0 x1 xv v

theorem FEmpty_FInsert_false {V : Type} [DecidableEq V] (t : TrieMapS V)
    (p : Pfx) (v : V) : FEmpty (FInsert t p v) = false := by
  have hT := FInsert_trie t p v
  obtain ⟨hself, -⟩ := trieInsert_roots t.trie p (usedKey t v)
  by_cases hfam : p.addr.is4 = true
  · simp only [hfam, coreRoot_true] at hself
    simp only [FEmpty, hT, hself, rootEmpty_insertPath, Bool.false_and]
  · have hfam' : p.addr.is4 = false := by simpa using hfam
    simp only [hfam', coreRoot_false] at hself
    simp only [FEmpty, hT, hself, rootEmpty_insertPath, Bool.and_false]

/-! ## Key-absence lemma -/

theorem noKeyIn_iff (k : Int) :
    ∀ n : TrieN, noKeyIn k n = true ↔
      ∀ m nv, storedAt n m = some nv → nv.key ≠ k := by
  intro n
  induction n with
  | nil =>
    constructor
    · intro _ m nv hs; simp [storedAt] at hs
    · intro _; rfl
  | node c0 c1 v ih0 ih1 =>
    constructor
    · intro h m nv hs
      simp only [noKeyIn, Bool.and_eq_true] at h
      cases m with
      | nil =>
        simp only [storedAt] at hs
        subst hs
        simpa using h.1.1
      | cons b m' =>
        simp only [storedAt] at hs
        cases b
        · exact (ih0.mp h.1.2) m' nv (by simpa using hs)
        · exact (ih1.mp h.2) m' nv (by simpa using hs)
    · intro h
      simp only [noKeyIn, Bool.and_eq_true]
      refine ⟨⟨?_, ?_⟩, ?_⟩
      · cases v with
        | none => rfl
        | some nv =>
          have := h [] nv (by simp [storedAt])
          simpa using this
      · exact ih0.mpr
          (fun m nv hs => h (false :: m) nv (by simpa [storedAt] using hs))
      · exact ih1.mpr
          (fun m nv hs => h (true :: m) nv (by simpa [storedAt] using hs))

/-! ## Claims -/

/-- C1: Longest-prefix-match correctness of lookup. For every reachable
state of the map, every stored prefix `p` bound to key `k` whose
registered value is `v`, and every address `a` contained in `p` such
that no stored prefix containing `a` has a greater bit length, `Get a`
returns `(v, true)`. -/
theorem claim_C1_longest_prefix_match {V : Type} [DecidableEq V]
    (zeroV : V) (t : TrieMapS V) (p : Pfx) (k : Int) (v : V) (a : Addr)
    (hre : Reachable zeroV t)
    (hb : storedAt (rootOf t a.is4) (pfxPath p) = some ⟨p, k⟩)
    (hv : alookup t.keyToValue k = some v)
    (hcont : containsA p a = true)
    (hmax : maxMatchBits a p.bits (rootOf t a.is4) = true) :
    FGet zeroV t a = (v, true) :=
  FGet_finds zeroV t p k v a hre hb hv hcont hmax

theorem claim_C1_witness : FGet (0 : Int) sA aA = (101, true) :=
  claim_C1_longest_prefix_match 0 sA pA 0 101 aA
    (Reachable.insert pA 101 (by decide) Reachable.new)
    (by decide) (by decide) (by decide) (by decide)

/-- C2: the code allocates keys as `len(keyToValue)`, so after an
eviction a fresh value gets a key still referenced by live trie nodes --
contradicting the claim's strictly monotone never-reused counter. In the
scenario below key `1` is allocated to value `102`, value `101` is
evicted, and the fresh value `103` is allocated key `1` again while the
node for `192.168.0.0/16` still references it; `Get` on an address of
that prefix then answers `103` instead of `102`. -/
theorem claim_C2_key_reuse :
    alookup sAB.valueToKey 102 = some 1 ∧
    alookup sReuse.valueToKey 103 = some 1 ∧
    storedAt sReuse.trie.ipv4Root (pfxPath pB) = some ⟨pB, 1⟩ ∧
    FGet 0 sReuse aB = (103, true) := by decide

/-- C3: on `Remove`, when the reference count reaches zero the code
deletes `keyToValue[key]` first and then deletes
`valueToKey[keyToValue[key]]`, reading the just-deleted entry (zero
value). The key is evicted from the trie and from `keyToValue` but the
stale `valueToKey` entry survives, contradicting the claim that an
unreferenced key is absent from *both* registry maps. -/
theorem claim_C3_eviction_bug :
    (FRemove (0 : Int) sA pA).2 = true ∧
    noKeyIn 0 sARemoved.trie.ipv4Root = true ∧
    alookup sARemoved.keyToValue 0 = none ∧
    alookup sARemoved.valueToKey 101 = some 0 := by decide

/-- C4: `Remove` returns true iff a binding whose stored prefix is
verbatim equal to the argument existed at its node; on success that
binding is deleted, and on failure the whole structure is returned
unchanged. -/
theorem claim_C4_remove_exact {V : Type} [DecidableEq V] (zeroV : V)
    (t : TrieMapS V) (p : Pfx) :
    ((FRemove zeroV t p).2 = true ↔
      ∃ k, storedAt (rootOf t p.addr.is4) (pfxPath p) = some ⟨p, k⟩) ∧
    ((FRemove zeroV t p).2 = false → (FRemove zeroV t p).1 = t) ∧
    ((FRemove zeroV t p).2 = true →
      storedAt (rootOf (FRemove zeroV t p).1 p.addr.is4) (pfxPath p)
        = none) := by
  refine ⟨⟨?_, ?_⟩, ?_, ?_⟩
  · intro htrue
    by_contra hno
    push_neg at hno
    have hnf := trieRemove_not_found t.trie p hno
    rw [FRemove_snd, hnf] at htrue
    exact Bool.noConfusion htrue
  · rintro ⟨k, hk⟩
    have hf := trieRemove_found t.trie p k hk
    rw [FRemove_snd]
    exact hf.2.1
  · intro hfalse
    have hno : ∀ k, storedAt (coreRoot t.trie p.addr.is4) (pfxPath p)
        ≠ some ⟨p, k⟩ := by
      intro k hk
      have hf := trieRemove_found t.trie p k hk
      rw [FRemove_snd, hf.2.1] at hfalse
      exact Bool.noConfusion hfalse
    have hnf := trieRemove_not_found t.trie p hno
    show (FRemove zeroV t p).1 = t
    simp [FRemove, hnf]
  · intro htrue
    by_cases hex : ∃ k, storedAt (coreRoot t.trie p.addr.is4) (pfxPath p)
        = some ⟨p, k⟩
    · obtain ⟨k, hk⟩ := hex
      have hf := trieRemove_found t.trie p k hk
      have hpt := hf.2.2.1 (pfxPath p)
      rw [if_pos rfl] at hpt
      rw [rootOf_eq_coreRoot, FRemove_trie]
      exact hpt
    · push_neg at hex
      have hnf := trieRemove_not_found t.trie p hex
      rw [FRemove_snd, hnf] at htrue
      exact Bool.noConfusion htrue

theorem claim_C4_witness : (FRemove (0 : Int) sA pA).2 = true :=
  (claim_C4_remove_exact 0 sA pA).1.mpr ⟨0, by decide⟩

/-- C8: lookup miss. If no stored prefix of the address's family
contains the address, `Get` returns the zero value with `false` — an
ordinary boolean result. -/
theorem claim_C8_get_miss {V : Type} [DecidableEq V] (zeroV : V)
    (t : TrieMapS V) (a : Addr)
    (h : noMatchIn a (rootOf t a.is4) = true) :
    FGet zeroV t a = (zeroV, false) :=
  FGet_miss zeroV t a h

theorem claim_C8_witness : FGet (0 : Int) sA aB = (0, false) :=
  claim_C8_get_miss 0 sA aB (by decide)

/-- C9 (as stated) is false: after removing the only prefix, the Go
`prune` leaves the root allocated as a node with no value and no
children (`prune` skips index 0 of the stack), so an empty node does
persist at the root. -/
theorem claim_C9_counterexample :
    noEmptyNodeIn sARemoved.trie.ipv4Root = false := by decide

/-- C9 amended: after every mutation, no *non-root* trie node with no
value and no children persists; the roots themselves may remain as empty
nodes (as `Empty()` anticipates). -/
theorem claim_C9_amended {V : Type} [DecidableEq V] (zeroV : V)
    (t : TrieMapS V) (hre : Reachable zeroV t) :
    wellPruned t.trie.ipv4Root = true ∧ wellPruned t.trie.ipv6Root = true :=
  ⟨(reachable_inv zeroV t hre).2.2.1, (reachable_inv zeroV t hre).2.2.2⟩

theorem claim_C9_witness :
    wellPruned sARemoved.trie.ipv4Root = true ∧
      wellPruned sARemoved.trie.ipv6Root = true :=
  claim_C9_amended 0 sARemoved
    (Reachable.remove pA (Reachable.insert pA 101 (by decide) Reachable.new))

/-- C5: Insert is replace-idempotent. Inserting `p ↦ v1` and then
`p ↦ v2` leaves exactly one binding at `p`'s node — the most recent key,
mapped to `v2` — with the old key's reference count decremented and the
new key's incremented; a subsequent `Get` on an address whose longest
match is `p` returns `v2`. -/
theorem claim_C5_replace_idempotent {V : Type} [DecidableEq V]
    (zeroV : V) (t : TrieMapS V) (p : Pfx) (v1 v2 : V) (a : Addr)
    (hre : Reachable zeroV t) (hwf : WFPfx p)
    (hne : usedKey (FInsert t p v1) v2 ≠ usedKey t v1)
    (hv2 : alookup (FInsert (FInsert t p v1) p v2).keyToValue
        (usedKey (FInsert t p v1) v2) = some v2)
    (hfam : a.is4 = p.addr.is4) (hcont : containsA p a = true)
    (hmax : maxMatchBits a p.bits
        (rootOf (FInsert (FInsert t p v1) p v2) a.is4) = true) :
    storedAt (rootOf (FInsert (FInsert t p v1) p v2) p.addr.is4)
        (pfxPath p)
      = some ⟨p, usedKey (FInsert t p v1) v2⟩ ∧
    refsGet (FInsert (FInsert t p v1) p v2).trie.keyRefs (usedKey t v1)
      = refsGet (FInsert t p v1).trie.keyRefs (usedKey t v1) - 1 ∧
    refsGet (FInsert (FInsert t p v1) p v2).trie.keyRefs
        (usedKey (FInsert t p v1) v2)
      = refsGet (FInsert t p v1).trie.keyRefs
          (usedKey (FInsert t p v1) v2) + 1 ∧
    FGet zeroV (FInsert (FInsert t p v1) p v2) a = (v2, true) := by
  have hb1 : storedAt (coreRoot (FInsert t p v1).trie p.addr.is4)
      (pfxPath p) = some ⟨p, usedKey t v1⟩ := by
    rw [FInsert_trie, (trieInsert_roots t.trie p (usedKey t v1)).1]
    exact insertPath_storedAt_self _ _ _
  have hb2 : storedAt (coreRoot (FInsert (FInsert t p v1) p v2).trie
      p.addr.is4) (pfxPath p)
      = some ⟨p, usedKey (FInsert t p v1) v2⟩ := by
    rw [FInsert_trie (FInsert t p v1) p v2,
      (trieInsert_roots (FInsert t p v1).trie p
        (usedKey (FInsert t p v1) v2)).1]
    exact insertPath_storedAt_self _ _ _
  have hRefs : (FInsert (FInsert t p v1) p v2).trie.keyRefs
      = refsInc (refsDec (FInsert t p v1).trie.keyRefs (usedKey t v1))
          (usedKey (FInsert t p v1) v2) := by
    rw [FInsert_trie (FInsert t p v1) p v2, trieInsert_keyRefs,
      insertPath_snd, hb1]
    rfl
  refine ⟨?_, ?_, ?_, ?_⟩
  · rw [rootOf_eq_coreRoot]
    exact hb2
  · rw [hRefs, refsGet_refsInc_ne _ _ _ (Ne.symm hne),
      refsGet_refsDec_self]
  · rw [hRefs, refsGet_refsInc_self, refsGet_refsDec_ne _ _ _ hne]
  · have hre2 : Reachable zeroV (FInsert (FInsert t p v1) p v2) :=
      Reachable.insert p v2 hwf (Reachable.insert p v1 hwf hre)
    exact FGet_finds zeroV (FInsert (FInsert t p v1) p v2) p
      (usedKey (FInsert t p v1) v2) v2 a hre2
      (by rw [hfam, rootOf_eq_coreRoot]; exact hb2) hv2 hcont hmax

theorem claim_C5_witness :
    storedAt (rootOf (FInsert (FInsert (NewMap Int) pA 101) pA 102)
        pA.addr.is4) (pfxPath pA)
      = some ⟨pA, usedKey (FInsert (NewMap Int) pA 101) 102⟩ ∧
    refsGet (FInsert (FInsert (NewMap Int) pA 101) pA 102).trie.keyRefs
        (usedKey (NewMap Int) 101)
      = refsGet (FInsert (NewMap Int) pA 101).trie.keyRefs
          (usedKey (NewMap Int) 101) - 1 ∧
    refsGet (FInsert (FInsert (NewMap Int) pA 101) pA 102).trie.keyRefs
        (usedKey (FInsert (NewMap Int) pA 101) 102)
      = refsGet (FInsert (NewMap Int) pA 101).trie.keyRefs
          (usedKey (FInsert (NewMap Int) pA 101) 102) + 1 ∧
    FGet (0 : Int) (FInsert (FInsert (NewMap Int) pA 101) pA 102) aA
      = (102, true) :=
  claim_C5_replace_idempotent 0 (NewMap Int) pA 101 102 aA
    Reachable.new (by decide) (by decide) (by decide) (by decide)
    (by decide) (by decide)

/-- C6: `RemoveValue` postcondition. If the value is unregistered the
call is a no-op; otherwise, afterwards no trie node of either family
holds a binding to the value's key (the snapshot collected before
removal covers every such binding), and the key is evicted from both
registry maps. -/
theorem claim_C6_removeValue {V : Type} [DecidableEq V] (zeroV : V)
    (t : TrieMapS V) (v : V) (hre : Reachable zeroV t) :
    (alookup t.valueToKey v = none → FRemoveValue t v = t) ∧
    (∀ k, alookup t.valueToKey v = some k →
      noKeyIn k (FRemoveValue t v).trie.ipv4Root = true ∧
      noKeyIn k (FRemoveValue t v).trie.ipv6Root = true ∧
      alookup (FRemoveValue t v).keyToValue k = none ∧
      alookup (FRemoveValue t v).valueToKey v = none) := by
  have hinv := reachable_inv zeroV t hre
  constructor
  · exact FRemoveValue_none t v
  · intro k hk
    rw [FRemoveValue_some t v k hk]
    refine ⟨?_, ?_, ?_, ?_⟩
    · rw [noKeyIn_iff]
      intro m nv hs
      exact removeAll_noKey t.trie k hinv.1 hinv.2.1 true m nv
        (by simpa using hs)
    · rw [noKeyIn_iff]
      intro m nv hs
      exact removeAll_noKey t.trie k hinv.1 hinv.2.1 false m nv
        (by simpa using hs)
    · exact alookup_adel_self _ _
    · exact alookup_adel_self _ _

theorem claim_C6_witness :
    noKeyIn 0 (FRemoveValue sAB 101).trie.ipv4Root = true ∧
    noKeyIn 0 (FRemoveValue sAB 101).trie.ipv6Root = true ∧
    alookup (FRemoveValue sAB 101).keyToValue 0 = none ∧
    alookup (FRemoveValue sAB 101).valueToKey 101 = none :=
  (claim_C6_removeValue 0 sAB 101
    (Reachable.insert pB 102 (by decide)
      (Reachable.insert pA 101 (by decide) Reachable.new))).2
    0 (by decide)

/-- C7: `Empty` semantics. It is true on a fresh map; on any reachable
state it is true exactly when no binding is stored in either family
(so in particular after every inserted prefix has been removed); and it
is false immediately after any `Insert`. -/
theorem claim_C7_empty {V : Type} [DecidableEq V] (zeroV : V) :
    FEmpty (NewMap V) = true ∧
    (∀ t : TrieMapS V, Reachable zeroV t →
      (FEmpty t = true ↔
        (noValuesIn t.trie.ipv4Root = true ∧
          noValuesIn t.trie.ipv6Root = true))) ∧
    (∀ (t : TrieMapS V) (p : Pfx) (v : V),
      FEmpty (FInsert t p v) = false) := by
  refine ⟨rfl, ?_, ?_⟩
  · intro t hre
    have hinv := reachable_inv zeroV t hre
    constructor
    · intro h
      simp only [FEmpty, Bool.and_eq_true] at h
      exact ⟨noValuesIn_of_rootEmpty _ h.1, noValuesIn_of_rootEmpty _ h.2⟩
    · rintro ⟨h4, h6⟩
      simp only [FEmpty, Bool.and_eq_true]
      exact ⟨rootEmpty_of_noValues_wellPruned _ hinv.2.2.1 h4,
        rootEmpty_of_noValues_wellPruned _ hinv.2.2.2 h6⟩
  · intro t p v
    exact FEmpty_FInsert_false t p v

theorem claim_C7_witness :
    FEmpty sARemoved = true ∧ FEmpty (FInsert sARemoved pA 7) = false := by
  constructor
  · exact ((claim_C7_empty (0 : Int)).2.1 sARemoved
      (Reachable.remove pA
        (Reachable.insert pA 101 (by decide) Reachable.new))).mpr
      (by decide)
  · exact (claim_C7_empty (0 : Int)).2.2 sARemoved pA 7

/-- C10: prefixes are stored verbatim, without normalization. For two
prefixes of one family with equal bit length and equal network bits but
different host bits, both inserts walk the same path and the single
binding there keeps the second prefix and value; and after inserting
`p`, removing `q` returns false and changes nothing, because removal
compares the stored prefix verbatim. -/
theorem claim_C10_verbatim {V : Type} [DecidableEq V] (zeroV : V)
    (t : TrieMapS V) (p q : Pfx) (v1 v2 : V)
    (hfam : p.addr.is4 = q.addr.is4) (hbits : p.bits = q.bits)
    (htop : p.addr.val >>> (widthOf p.addr - p.bits)
      = q.addr.val >>> (widthOf q.addr - q.bits))
    (hne : p ≠ q) :
    storedAt (rootOf (FInsert (FInsert t p v1) q v2) q.addr.is4)
        (pfxPath p)
      = some ⟨q, usedKey (FInsert t p v1) v2⟩ ∧
    FRemove zeroV (FInsert t p v1) q = (FInsert t p v1, false) := by
  have hpq : pfxPath p = pfxPath q := pfxPath_eq_of_same_top hfam hbits htop
  have hb1 : storedAt (coreRoot (FInsert t p v1).trie p.addr.is4)
      (pfxPath p) = some ⟨p, usedKey t v1⟩ := by
    rw [FInsert_trie, (trieInsert_roots t.trie p (usedKey t v1)).1]
    exact insertPath_storedAt_self _ _ _
  constructor
  · rw [rootOf_eq_coreRoot, FInsert_trie (FInsert t p v1) q v2,
      (trieInsert_roots (FInsert t p v1).trie q
        (usedKey (FInsert t p v1) v2)).1, hpq]
    exact insertPath_storedAt_self _ _ _
  · have hno : ∀ k, storedAt (coreRoot (FInsert t p v1).trie q.addr.is4)
        (pfxPath q) ≠ some ⟨q, k⟩ := by
      intro k hk
      rw [← hfam, ← hpq, hb1] at hk
      injection hk with hk'
      exact hne (congrArg NodeValue.pfx hk')
    have hnf := trieRemove_not_found (FInsert t p v1).trie q hno
    simp [FRemove, hnf]

theorem claim_C10_witness :
    storedAt (rootOf (FInsert (FInsert (NewMap Int) pA 5)
        ⟨⟨true, 0x0A000001⟩, 8⟩ 6) true) (pfxPath pA)
      = some ⟨⟨⟨true, 0x0A000001⟩, 8⟩,
          usedKey (FInsert (NewMap Int) pA 5) 6⟩ ∧
    FRemove (0 : Int) (FInsert (NewMap Int) pA 5) ⟨⟨true, 0x0A000001⟩, 8⟩
      = (FInsert (NewMap Int) pA 5, false) :=
  claim_C10_verbatim 0 (NewMap Int) pA ⟨⟨true, 0x0A000001⟩, 8⟩ 5 6
    (by decide) (by decide) (by decide) (by decide)

end TrieMapGo
